import Mathlib

/-!
Verification of the `kvs` log-structured key-value store.

This file shallowly embeds the core of the store (src/core/src/store.rs),
the sled-engine open guard (src/core/src/sled.rs), the error taxonomy
(src/core/src/error.rs) and the worker pool loop (src/server/src/pool.rs),
and proves or refutes the specification's claims about them.

Modelling conventions:
* Rust `String`s are byte lists (`Bytes := List Nat`); every byte written by
  the store is `< 256`.  UTF-8 validity is not modelled (all values read back
  in the theorems below were written by the store and decode to the same
  byte lists the code produced).
* The filesystem directory is an association list from the file number `n`
  of `<n>.log` to the file's contents.  File IO is infallible in the model;
  the only runtime errors modelled are the ones produced by the code itself
  (bincode decode failures and the `Rm`-record case of `value_at_pos`).
* `bincode` (default configuration) serializes an enum as a little-endian
  `u32` variant tag followed by the fields; a `String` is a little-endian
  `u64` byte length followed by the bytes.  `u16` counters wrap modulo 2^16.
* The shared `Arc<RwLock<...>>` is not modelled: every engine operation runs
  in its critical section, so the embedding is a sequential state machine.
-/

/-- Byte strings: contents of files, keys and values. -/
abbrev Bytes := List Nat

/-- Little-endian byte decomposition of `n` into `w` bytes (least significant
first), as `bincode` writes fixed-size unsigned integers. -/
def leBytes : Nat → Nat → Bytes
  | 0, _ => []
  | w + 1, n => n % 256 :: leBytes w (n / 256)

/-- Value of a little-endian byte string (first byte least significant). -/
def leValue : Bytes → Nat
  | [] => 0
  | b :: t => b + 256 * leValue t

/-- Log operation, mirroring `enum Op` in store.rs. -/
inductive Op where
  | set (key value : Bytes)
  | rm (key : Bytes)
deriving DecidableEq, Repr

/-- Bincode encoding of one `Op` record: a `u32` variant tag (`Set` = 0,
`Rm` = 1) followed by length-prefixed (`u64`) strings. -/
def encodeOp : Op → Bytes
  | .set k v => leBytes 4 0 ++ (leBytes 8 k.length ++ (k ++ (leBytes 8 v.length ++ v)))
  | .rm k => leBytes 4 1 ++ (leBytes 8 k.length ++ k)

/-- Read exactly `n` bytes from the front of `b`; fails (like a short read at
end of file) when fewer are available. -/
def readBytes (n : Nat) (b : Bytes) : Option (Bytes × Bytes) :=
  if n ≤ b.length then some (b.take n, b.drop n) else none

/-- Read a `w`-byte little-endian unsigned integer. -/
def readLe (w : Nat) (b : Bytes) : Option (Nat × Bytes) :=
  (readBytes w b).map fun p => (leValue p.1, p.2)

/-- Bincode decoding of one `Op` record from the front of `b`, returning the
record and the remaining bytes.  `none` models a `bincode` error: end of
file, a truncated record, or an invalid variant tag. -/
def decodeOp (b : Bytes) : Option (Op × Bytes) :=
  (readLe 4 b).bind fun t =>
    if t.1 = 0 then
      (readLe 8 t.2).bind fun kl =>
        (readBytes kl.1 kl.2).bind fun kp =>
          (readLe 8 kp.2).bind fun vl =>
            (readBytes vl.1 vl.2).bind fun vp => some (.set kp.1 vp.1, vp.2)
    else if t.1 = 1 then
      (readLe 8 t.2).bind fun kl =>
        (readBytes kl.1 kl.2).bind fun kp => some (.rm kp.1, kp.2)
    else none

/-- Strings a `u64` length prefix can describe exactly. -/
def U64CAP : Nat := 2 ^ 64

/-- An `Op` whose strings fit their `u64` length prefixes (always true of
Rust `String`s, whose length is a `usize`). -/
def ValidOp : Op → Prop
  | .set k v => k.length < U64CAP ∧ v.length < U64CAP
  | .rm k => k.length < U64CAP

instance : DecidablePred ValidOp := fun op => by
  cases op <;> simp [ValidOp] <;> infer_instance

theorem leBytes_length (w n : Nat) : (leBytes w n).length = w := by
  induction w generalizing n with
  | zero => rfl
  | succ w ih => simp [leBytes, ih]

theorem leBytes_lt (w n : Nat) : ∀ b ∈ leBytes w n, b < 256 := by
  induction w generalizing n with
  | zero => simp [leBytes]
  | succ w ih =>
    intro b hb
    simp only [leBytes, List.mem_cons] at hb
    rcases hb with h | h
    · omega
    · exact ih _ _ h

theorem leValue_leBytes (w n : Nat) : leValue (leBytes w n) = n % 256 ^ w := by
  induction w generalizing n with
  | zero => simp [leBytes, leValue, Nat.mod_one]
  | succ w ih =>
    simp only [leBytes, leValue, ih]
    have hdvd : (256 : Nat) ∣ 256 * 256 ^ w := ⟨256 ^ w, rfl⟩
    calc n % 256 + 256 * (n / 256 % 256 ^ w)
        = n % (256 * 256 ^ w) % 256 + 256 * (n % (256 * 256 ^ w) / 256) := by
          rw [Nat.mod_mod_of_dvd n hdvd, Nat.mod_mul_right_div_self]
      _ = n % (256 * 256 ^ w) := Nat.mod_add_div _ 256
      _ = n % 256 ^ (w + 1) := by rw [pow_succ']

theorem leValue_leBytes_of_lt {w n : Nat} (h : n < 256 ^ w) :
    leValue (leBytes w n) = n := by
  rw [leValue_leBytes, Nat.mod_eq_of_lt h]

theorem readBytes_exact {b : Bytes} {n : Nat} (r : Bytes) (h : b.length = n) :
    readBytes n (b ++ r) = some (b, r) := by
  subst h
  simp [readBytes, List.take_left, List.drop_left]

theorem readLe_leBytes (w n : Nat) (r : Bytes) (h : n < 256 ^ w) :
    readLe w (leBytes w n ++ r) = some (n, r) := by
  rw [readLe, readBytes_exact r (leBytes_length w n)]
  simp [leValue_leBytes_of_lt h]

theorem readBytes_append {n : Nat} {b : Bytes} {p : Bytes × Bytes}
    (h : readBytes n b = some p) (e : Bytes) :
    readBytes n (b ++ e) = some (p.1, p.2 ++ e) := by
  unfold readBytes at h ⊢
  split at h
  · rename_i hle
    have hle' : n ≤ (b ++ e).length := by simp; omega
    rw [if_pos hle']
    obtain rfl := (Option.some.injEq _ _).mp h |>.symm
    rw [List.take_append_of_le_length hle, List.drop_append_of_le_length hle]
  · exact absurd h (by simp)

theorem readLe_append {w : Nat} {b : Bytes} {t : Nat × Bytes}
    (h : readLe w b = some t) (e : Bytes) :
    readLe w (b ++ e) = some (t.1, t.2 ++ e) := by
  unfold readLe at h ⊢
  cases hr : readBytes w b with
  | none => rw [hr] at h; exact absurd h (by simp)
  | some p =>
    rw [hr] at h
    simp only [Option.map_some'] at h
    rw [readBytes_append hr e]
    simp only [Option.map_some']
    injection h with h
    subst h
    rfl

theorem readBytes_length {n : Nat} {b : Bytes} {p : Bytes × Bytes}
    (h : readBytes n b = some p) :
    p.2.length + n = b.length ∧ p.1.length = n := by
  unfold readBytes at h
  split at h
  · rename_i hle
    obtain rfl := (Option.some.injEq _ _).mp h |>.symm
    constructor
    · simp; omega
    · simp [hle]
  · exact absurd h (by simp)

theorem readLe_length {w : Nat} {b : Bytes} {t : Nat × Bytes}
    (h : readLe w b = some t) : t.2.length + w = b.length := by
  unfold readLe at h
  cases hr : readBytes w b with
  | none => rw [hr] at h; exact absurd h (by simp)
  | some p =>
    rw [hr] at h
    simp only [Option.map_some'] at h
    have := (readBytes_length hr).1
    injection h with h
    subst h
    simpa using this

/-- Decoding inverts encoding, for any trailing bytes. -/
theorem decodeOp_encodeOp {op : Op} (hv : ValidOp op) (r : Bytes) :
    decodeOp (encodeOp op ++ r) = some (op, r) := by
  have hcap : (256 : Nat) ^ 8 = U64CAP := by norm_num [U64CAP]
  cases op with
  | set k v =>
    obtain ⟨hk, hvl⟩ := hv
    have hk8 : k.length < 256 ^ 8 := by omega
    have hv8 : v.length < 256 ^ 8 := by omega
    simp only [encodeOp, List.append_assoc, decodeOp]
    rw [readLe_leBytes 4 0 _ (by norm_num)]
    simp only [Option.some_bind, if_pos rfl]
    rw [readLe_leBytes 8 k.length _ hk8]
    simp only [Option.some_bind]
    rw [readBytes_exact _ rfl]
    simp only [Option.some_bind]
    rw [readLe_leBytes 8 v.length _ hv8]
    simp only [Option.some_bind]
    rw [readBytes_exact _ rfl]
    simp only [Option.some_bind]
    simp
  | rm k =>
    have hk8 : k.length < 256 ^ 8 := by
      simp only [ValidOp] at hv
      omega
    simp only [encodeOp, List.append_assoc, decodeOp]
    rw [readLe_leBytes 4 1 _ (by norm_num)]
    simp only [Option.some_bind, if_neg (by norm_num : ¬(1 : Nat) = 0), if_pos rfl]
    rw [readLe_leBytes 8 k.length _ hk8]
    simp only [Option.some_bind]
    rw [readBytes_exact _ rfl]
    simp only [Option.some_bind]
    simp

/-- Decoding is stable under appending bytes after the decoded record: a
record already fully present in the log decodes to the same value after the
log grows. -/
theorem decodeOp_append {b : Bytes} {op : Op} {rest : Bytes}
    (h : decodeOp b = some (op, rest)) (e : Bytes) :
    decodeOp (b ++ e) = some (op, rest ++ e) := by
  unfold decodeOp at h ⊢
  cases h4 : readLe 4 b with
  | none => rw [h4] at h; exact absurd h (by simp)
  | some t =>
    rw [h4] at h
    rw [readLe_append h4 e]
    simp only [Option.some_bind] at h ⊢
    by_cases ht0 : t.1 = 0
    · rw [if_pos ht0] at h ⊢
      cases h8 : readLe 8 t.2 with
      | none => rw [h8] at h; exact absurd h (by simp)
      | some kl =>
        rw [h8] at h
        rw [readLe_append h8 e]
        simp only [Option.some_bind] at h ⊢
        cases hkb : readBytes kl.1 kl.2 with
        | none => rw [hkb] at h; exact absurd h (by simp)
        | some kp =>
          rw [hkb] at h
          rw [readBytes_append hkb e]
          simp only [Option.some_bind] at h ⊢
          cases h8' : readLe 8 kp.2 with
          | none => rw [h8'] at h; exact absurd h (by simp)
          | some vl =>
            rw [h8'] at h
            rw [readLe_append h8' e]
            simp only [Option.some_bind] at h ⊢
            cases hvb : readBytes vl.1 vl.2 with
            | none => rw [hvb] at h; exact absurd h (by simp)
            | some vp =>
              rw [hvb] at h
              rw [readBytes_append hvb e]
              simp only [Option.some_bind, Option.some.injEq, Prod.mk.injEq] at h ⊢
              exact ⟨h.1, by rw [← h.2]⟩
    · rw [if_neg ht0] at h ⊢
      by_cases ht1 : t.1 = 1
      · rw [if_pos ht1] at h ⊢
        cases h8 : readLe 8 t.2 with
        | none => rw [h8] at h; exact absurd h (by simp)
        | some kl =>
          rw [h8] at h
          rw [readLe_append h8 e]
          simp only [Option.some_bind] at h ⊢
          cases hkb : readBytes kl.1 kl.2 with
          | none => rw [hkb] at h; exact absurd h (by simp)
          | some kp =>
            rw [hkb] at h
            rw [readBytes_append hkb e]
            simp only [Option.some_bind, Option.some.injEq, Prod.mk.injEq] at h ⊢
            exact ⟨h.1, by rw [← h.2]⟩
      · rw [if_neg ht1] at h
        exact absurd h (by simp)

/-- A successful decode consumes at least the four tag bytes, so replay
terminates. -/
theorem decodeOp_rest_lt {b : Bytes} {op : Op} {rest : Bytes}
    (h : decodeOp b = some (op, rest)) : rest.length < b.length := by
  unfold decodeOp at h
  cases h4 : readLe 4 b with
  | none => rw [h4] at h; exact absurd h (by simp)
  | some t =>
    rw [h4] at h
    simp only [Option.some_bind] at h
    have l4 := readLe_length h4
    by_cases ht0 : t.1 = 0
    · rw [if_pos ht0] at h
      cases h8 : readLe 8 t.2 with
      | none => rw [h8] at h; exact absurd h (by simp)
      | some kl =>
        rw [h8] at h
        simp only [Option.some_bind] at h
        have l8 := readLe_length h8
        cases hkb : readBytes kl.1 kl.2 with
        | none => rw [hkb] at h; exact absurd h (by simp)
        | some kp =>
          rw [hkb] at h
          simp only [Option.some_bind] at h
          have lk := (readBytes_length hkb).1
          cases h8' : readLe 8 kp.2 with
          | none => rw [h8'] at h; exact absurd h (by simp)
          | some vl =>
            rw [h8'] at h
            simp only [Option.some_bind] at h
            have l8' := readLe_length h8'
            cases hvb : readBytes vl.1 vl.2 with
            | none => rw [hvb] at h; exact absurd h (by simp)
            | some vp =>
              rw [hvb] at h
              have lv := (readBytes_length hvb).1
              simp only [Option.some_bind, Option.some.injEq, Prod.mk.injEq] at h
              obtain ⟨_, h2⟩ := h
              subst h2
              omega
    · rw [if_neg ht0] at h
      by_cases ht1 : t.1 = 1
      · rw [if_pos ht1] at h
        cases h8 : readLe 8 t.2 with
        | none => rw [h8] at h; exact absurd h (by simp)
        | some kl =>
          rw [h8] at h
          simp only [Option.some_bind] at h
          have l8 := readLe_length h8
          cases hkb : readBytes kl.1 kl.2 with
          | none => rw [hkb] at h; exact absurd h (by simp)
          | some kp =>
            rw [hkb] at h
            have lk := (readBytes_length hkb).1
            simp only [Option.some_bind, Option.some.injEq, Prod.mk.injEq] at h
            obtain ⟨_, h2⟩ := h
            subst h2
            omega
      · rw [if_neg ht1] at h
        exact absurd h (by simp)

theorem decodeOp_nil : decodeOp [] = none := by decide

/-- Every byte of an encoded record is below 256, provided the encoded
strings are bytes. -/
theorem encodeOp_bytes_lt (op : Op)
    (hop : ∀ b ∈ (match op with | .set k v => k ++ v | .rm k => k), b < 256) :
    ∀ b ∈ encodeOp op, b < 256 := by
  cases op with
  | set k v =>
    intro b hb
    simp only [encodeOp, List.mem_append] at hb
    rcases hb with h | h | h | h | h
    · exact leBytes_lt 4 0 b h
    · exact leBytes_lt 8 k.length b h
    · exact hop b (by simp [h])
    · exact leBytes_lt 8 v.length b h
    · exact hop b (by simp [h])
  | rm k =>
    intro b hb
    simp only [encodeOp, List.mem_append] at hb
    rcases hb with h | h | h
    · exact leBytes_lt 4 1 b h
    · exact leBytes_lt 8 k.length b h
    · exact hop b h

/-! ## Association lists

`HashMap<String, LogPtr>` (the index) and the directory of `<n>.log` files
are modelled as association lists.  `ainsert` keeps an existing key in
place, like `HashMap::insert` overwriting a value; the iteration order a
`HashMap` would give is unspecified in Rust, so the model fixes insertion
order — no theorem below depends on which order is chosen. -/

/-- Association-list lookup (first match). -/
def alookup {κ α : Type} [DecidableEq κ] (l : List (κ × α)) (k : κ) : Option α :=
  match l with
  | [] => none
  | e :: t => if e.1 = k then some e.2 else alookup t k

/-- Association-list insert, returning the displaced value (as
`HashMap::insert` does) and the updated list. -/
def ainsert {κ α : Type} [DecidableEq κ] (l : List (κ × α)) (k : κ) (v : α) :
    Option α × List (κ × α) :=
  match l with
  | [] => (none, [(k, v)])
  | e :: t =>
    if e.1 = k then (some e.2, (k, v) :: t)
    else
      let r := ainsert t k v
      (r.1, e :: r.2)

/-- Association-list removal of a key. -/
def aerase {κ α : Type} [DecidableEq κ] (l : List (κ × α)) (k : κ) : List (κ × α) :=
  match l with
  | [] => []
  | e :: t => if e.1 = k then t else e :: aerase t k

/-! ## Store state -/

/-- A log pointer, mirroring `struct LogPtr`: which `<file_num>.log` file a
record lives in and its byte offset (`pos`) there. -/
structure LogPtr where
  file_num : Nat
  pos : Nat
deriving DecidableEq, Repr

/-- The directory on disk: contents of each `<n>.log` file, keyed by `n`. -/
abbrev Dir := List (Nat × Bytes)

/-- The index: `HashMap<String, LogPtr>` as an association list. -/
abbrev Index := List (Bytes × LogPtr)

/-- Shared store state, mirroring `struct SharedKvStore`.  The open
`log_file` handle is the directory entry at key `monotonic`; `path` is
implicit in `dir`. -/
structure SharedKvStore where
  dir : Dir
  index : Index
  /-- Number of compaction opportunities; a `u16` in the source, so
  increments wrap modulo 2^16. -/
  compactions : Nat
  /-- Max id of current log files (`u64`). -/
  monotonic : Nat
deriving DecidableEq, Repr

/-- Contents of `<n>.log`, empty if the file does not exist (reads of a
missing file hit end-of-file immediately). -/
def lookupFile (dir : Dir) (n : Nat) : Bytes :=
  (alookup dir n).getD []

/-- Write the full contents of `<n>.log` (create it if absent). -/
def updateFile (dir : Dir) (n : Nat) (b : Bytes) : Dir :=
  (ainsert dir n b).2

/-- Delete `<n>.log`, mirroring `remove_file`. -/
def eraseFile (dir : Dir) (n : Nat) : Dir :=
  aerase dir n

/-- The error taxonomy of src/core/src/error.rs.  `enum Error` has exactly
these five variants; payloads other than `KeyNotFound`'s key are irrelevant
to the claims and are dropped. -/
inductive Error where
  | keyNotFound (key : Bytes)
  | ioError
  | serialization
  | server (msg : String)
  | synchronization (msg : String)
deriving DecidableEq, Repr

/-- Arbitrary limit before compacting (`static COMPACTION_LIMIT: u16 = 50`). -/
def COMPACTION_LIMIT : Nat := 50

/-- Mirrors `SharedKvStore::value_at_pos`: seek `reader` to `pos` and decode
one record.  A decode failure is a bincode `Serialization` error; decoding
an `Rm` record yields `Error::KeyNotFound` with the `Rm` record's key (the
source's TODO comment notes a dedicated corruption error is missing). -/
def value_at_pos (reader : Bytes) (pos : Nat) : Except Error Bytes :=
  match decodeOp (reader.drop pos) with
  | some (.set _ value, _) => .ok value
  | some (.rm key, _) => .error (.keyNotFound key)
  | none => .error .serialization

/-- The value read by `compact` for one index entry: from the active
`log_file` handle when `file_num == monotonic`, otherwise from a freshly
opened `<file_num>.log`.  (`open_file` passes `create(true)`, so a missing
`<file_num>.log` would be created empty and the read would fail decoding at
offset `pos`; the created empty file itself is not modelled, and no state
reached in the theorems below has an entry whose file is missing.) -/
def readVal (dir : Dir) (active : Bytes) (mono : Nat) (p : LogPtr) : Except Error Bytes :=
  if p.file_num = mono then value_at_pos active p.pos
  else value_at_pos (lookupFile dir p.file_num) p.pos

/-- The loop body of `SharedKvStore::compact`: for each index entry, read
its value, append a fresh `Set` record to the new log, and rewrite the
entry to point at the new file.  On a read error the loop stops, leaving
already-processed entries rewritten and the remaining ones untouched,
exactly as the `?` operator does mid-iteration.  Returns the rewritten
entries, the new log contents, and the error if any. -/
def compactLoop (dir : Dir) (active : Bytes) (mono newMono : Nat) :
    Index → Bytes → Index × Bytes × Option Error
  | [], acc => ([], acc, none)
  | e :: rest, acc =>
    match readVal dir active mono e.2 with
    | .error err => (e :: rest, acc, some err)
    | .ok value =>
      let pos := acc.length
      let acc' := acc ++ encodeOp (.set e.1 value)
      let r := compactLoop dir active mono newMono rest acc'
      ((e.1, ⟨newMono, pos⟩) :: r.1, r.2.1, r.2.2)

/-- Mirrors `SharedKvStore::compact`: open `<monotonic+1>.log` (created
empty when absent, appended to otherwise), rewrite every live entry into
it, delete `<monotonic>.log`, make the new file the active log, zero the
compaction counter and advance `monotonic`. -/
def SharedKvStore.compact (s : SharedKvStore) : Except Error Unit × SharedKvStore :=
  let newMono := s.monotonic + 1
  let startBytes := lookupFile s.dir newMono
  let active := lookupFile s.dir s.monotonic
  match compactLoop s.dir active s.monotonic newMono s.index startBytes with
  | (idx, acc, some err) =>
    (.error err, { s with index := idx, dir := updateFile s.dir newMono acc })
  | (idx, acc, none) =>
    (.ok (), { dir := eraseFile (updateFile s.dir newMono acc) s.monotonic,
               index := idx,
               compactions := 0,
               monotonic := newMono })

/-- Mirrors `SharedKvStore::compact_maybe`: compact when the opportunity
counter has reached `COMPACTION_LIMIT`. -/
def SharedKvStore.compact_maybe (s : SharedKvStore) : Except Error Unit × SharedKvStore :=
  if COMPACTION_LIMIT ≤ s.compactions then s.compact else (.ok (), s)

/-- Mirrors `KvStore::set`: seek the active log to its end (capturing the
offset), append the encoded `Set` record, insert the new pointer into the
index, and — only if the insert displaced a previous entry — bump the
compaction counter and maybe compact. -/
def KvStore.set (s : SharedKvStore) (key value : Bytes) :
    Except Error Unit × SharedKvStore :=
  let active := lookupFile s.dir s.monotonic
  let pos := active.length
  let dir' := updateFile s.dir s.monotonic (active ++ encodeOp (.set key value))
  let r := ainsert s.index key ⟨s.monotonic, pos⟩
  let s' : SharedKvStore := { s with dir := dir', index := r.2 }
  if r.1.isSome then
    SharedKvStore.compact_maybe { s' with compactions := (s'.compactions + 1) % 65536 }
  else
    (.ok (), s')

/-- Mirrors `KvStore::get`: look the key up in the index and, when present,
read the record at the stored offset — from the active `log_file` handle,
regardless of the entry's `file_num` (store.rs line 77). -/
def KvStore.get (s : SharedKvStore) (key : Bytes) : Except Error (Option Bytes) :=
  match alookup s.index key with
  | some log_ptr =>
    match value_at_pos (lookupFile s.dir s.monotonic) log_ptr.pos with
    | .ok v => .ok (some v)
    | .error e => .error e
  | none => .ok none

/-- Mirrors `KvStore::remove`: error with `KeyNotFound` when the key is
absent (before touching anything); otherwise append an `Rm` record (the
file was opened in append mode, so the write goes to the end), drop the
index entry, bump the compaction counter and maybe compact. -/
def KvStore.remove (s : SharedKvStore) (key : Bytes) :
    Except Error Unit × SharedKvStore :=
  if (alookup s.index key).isNone then
    (.error (.keyNotFound key), s)
  else
    let active := lookupFile s.dir s.monotonic
    let dir' := updateFile s.dir s.monotonic (active ++ encodeOp (.rm key))
    SharedKvStore.compact_maybe
      { s with dir := dir', index := aerase s.index key,
               compactions := (s.compactions + 1) % 65536 }

/-! ## Opening a store (recovery / replay) -/

/-- One replayed record, as in the match inside `KvStore::open`: a `Set`
inserts a pointer (counting a displaced entry as a compaction opportunity),
an `Rm` removes the key and always counts an opportunity. -/
def replay_record (file_num pos : Nat) (op : Op) (st : Index × Nat) : Index × Nat :=
  match op with
  | .set k _ =>
    let r := ainsert st.1 k ⟨file_num, pos⟩
    (r.2, if r.1.isSome then (st.2 + 1) % 65536 else st.2)
  | .rm k => (aerase st.1 k, (st.2 + 1) % 65536)

/-- The replay loop of `KvStore::open` over one file's remaining bytes:
record the current position, decode one record, process it, repeat; stop at
the first decode failure (end of file or truncated trailing record).
`total` is the file's length, so the current position is
`total - rem.length`.  `fuel` only forces structural termination; it is
always called with `fuel ≥ rem.length`, which by `decodeOp_rest_lt` never
runs out. -/
def replay_loop (file_num total : Nat) : Nat → Bytes → Index × Nat → Index × Nat
  | 0, _, st => st
  | fuel + 1, rem, st =>
    match decodeOp rem with
    | none => st
    | some (op, rest) =>
      replay_loop file_num total fuel rest
        (replay_record file_num (total - rem.length) op st)

/-- Replay one whole `<file_num>.log` file. -/
def replay_file (file_num : Nat) (bytes : Bytes) (st : Index × Nat) : Index × Nat :=
  replay_loop file_num bytes.length bytes.length bytes st

/-- Replay a list of files in order (`fold` in `KvStore::open`). -/
def replay_files (dir : Dir) : List Nat → Index × Nat → Index × Nat
  | [], st => st
  | n :: t, st => replay_files dir t (replay_file n (lookupFile dir n) st)

/-- Insertion into an ascending list, for `Vec::sort`. -/
def insertSorted (n : Nat) : List Nat → List Nat
  | [] => [n]
  | m :: t => if n ≤ m then n :: m :: t else m :: insertSorted n t

/-- Ascending sort, modelling `log_files.sort()`. -/
def sortNats (l : List Nat) : List Nat :=
  l.foldr insertSorted []

/-- Mirrors `SharedKvStore::parse_file_num`: take the longest leading run
of ASCII digits and parse it; an empty run fails. -/
def parse_file_num (file_name : String) : Option Nat :=
  let digits := file_name.data.takeWhile Char.isDigit
  if digits.isEmpty then none
  else some (digits.foldl (fun acc c => acc * 10 + (c.toNat - 48)) 0)

/-- String-suffix test on the character lists (the semantics of Rust's
`str::ends_with` with a string pattern). -/
def strEndsWith (s suffix : String) : Bool :=
  suffix.data.isSuffixOf s.data

/-- Mirrors `SharedKvStore::sorted_file_nums` at the file-name level:
keep non-directory entries whose name ends (as a string) in `.log`, parse
their leading digits, and sort ascending. -/
def sorted_file_nums_of_names (entries : List (String × Bool)) : List Nat :=
  sortNats ((entries.filterMap fun e =>
    if e.2 then none
    else if strEndsWith e.1 ".log" then parse_file_num e.1 else none))

/-- The file numbers of the directory model, sorted ascending.  `Dir` keys
files by the number `n` of `<n>.log` directly; `sorted_file_nums_of_names`
shows how the code derives these numbers from file names. -/
def sorted_file_nums (dir : Dir) : List Nat :=
  sortNats (dir.map Prod.fst)

/-- Last element with a default (the `.last().unwrap()` of `open`, reached
only on a non-empty list). -/
def lastD : List Nat → Nat → Nat
  | [], d => d
  | [n], _ => n
  | _ :: m :: t, d => lastD (m :: t) d

/-- Mirrors `KvStore::open` (named `open'` because `open` is a Lean
keyword): enumerate `<digits>.log` files; if none, start fresh with
`monotonic := 1` and create `1.log`; otherwise replay every file in
ascending order to rebuild the index and the compaction counter, and adopt
the greatest file number as `monotonic`, opening that file as the active
log (`create(true)` leaves an existing file unchanged).  IO errors are not
modelled, so opening always succeeds. -/
def KvStore.open' (dir : Dir) : SharedKvStore :=
  match sorted_file_nums dir with
  | [] =>
    { dir := updateFile dir 1 (lookupFile dir 1),
      index := [], compactions := 0, monotonic := 1 }
  | n :: rest =>
    let st := replay_files dir (n :: rest) ([], 0)
    let monotonic := lastD (n :: rest) 0
    { dir := updateFile dir monotonic (lookupFile dir monotonic),
      index := st.1, compactions := st.2, monotonic := monotonic }

/-! ## Sled engine open guard (src/core/src/sled.rs) -/

/-- A directory entry as `read_dir` yields it: file name and whether the
entry is a directory. -/
structure DirEntry where
  name : String
  isDir : Bool
deriving DecidableEq, Repr

/-- `LOG_EXT`: the log-file extension.  (Referenced by sled.rs as
`crate::store::LOG_EXT`; its definition is not in the provided store.rs,
but every log file the store creates is named `format!("{}.log", n)`, so
the extension is `"log"`.) -/
def LOG_EXT : String := "log"

/-- `Path::ends_with` compares whole path components: `child` is a suffix
of the component list of the path.  In particular a path ends with
`".log"` only when its final component is literally `".log"` — it is not a
string-suffix test. -/
def pathEndsWith (components child : List String) : Bool :=
  child.isSuffixOf components

/-- The guard inside `SledEngine::open`: whether any non-directory entry's
path ends (component-wise) with `".{LOG_EXT}"`.  `base` is the component
list of the store directory's path. -/
def sledContainsKvsFiles (base : List String) (entries : List DirEntry) : Bool :=
  entries.any fun e => !e.isDir && pathEndsWith (base ++ [e.name]) (("." ++ LOG_EXT) :: [])

/-- Mirrors `SledEngine::open` up to the engine-mismatch check: when the
guard trips, the error returned is `Error::Io` (with `InvalidInput`); there
is no `EngineMismatch` variant in the `Error` enum.  A successful check
hands the directory to `sled::open`, modelled as success. -/
def SledEngine.open' (base : List String) (entries : List DirEntry) : Except Error Unit :=
  if sledContainsKvsFiles base entries then .error .ioError else .ok ()

/-! ## Worker pool (src/server/src/pool.rs) -/

/-- A message on the shared queue: a job (identified by `id`, and flagged
with whether running it panics) or the shutdown sentinel. -/
inductive PoolMsg where
  | job (id : Nat) (panics : Bool)
  | shutdown
deriving DecidableEq, Repr

/-- How a worker's `handle_jobs` loop ends. -/
inductive WorkerExit where
  /-- The worker matched `Message::Shutdown` and broke out of the loop. -/
  | shutdown
  /-- A job unwound (panicked); there is no `catch_unwind` around `f()`, so
  the panic propagates out of `handle_jobs` and terminates the thread. -/
  | panicked (id : Nat)
deriving DecidableEq, Repr

/-- Mirrors `SharedQueueThreadPool::handle_jobs` on the sequence of
messages the worker dequeues: run each job in order (`Ok(Message::Job(f))
=> f()`), exit on `Shutdown`.  Returns the ids of jobs that ran to
completion and how (whether) the loop exited; `none` means the queue ran
dry and the worker is still spinning on `Err(_) => continue`.  A panicking
job completes nothing and ends the thread. -/
def handle_jobs : List PoolMsg → List Nat × Option WorkerExit
  | [] => ([], none)
  | .shutdown :: _ => ([], some .shutdown)
  | .job id panics :: rest =>
    if panics then ([], some (.panicked id))
    else
      let r := handle_jobs rest
      (id :: r.1, r.2)

/-! ## Association-list lemmas -/

section AList

variable {κ α : Type} [DecidableEq κ]

theorem alookup_ainsert_self (l : List (κ × α)) (k : κ) (v : α) :
    alookup (ainsert l k v).2 k = some v := by
  induction l with
  | nil => simp [alookup, ainsert]
  | cons e t ih =>
    by_cases h : e.1 = k
    · simp [ainsert, alookup, h]
    · simp [ainsert, alookup, h, ih]

theorem alookup_ainsert_ne (l : List (κ × α)) (k k' : κ) (v : α) (h : k ≠ k') :
    alookup (ainsert l k v).2 k' = alookup l k' := by
  induction l with
  | nil => simp [alookup, ainsert, h]
  | cons e t ih =>
    by_cases he : e.1 = k
    · simp only [ainsert, if_pos he]
      rw [alookup, alookup]
      have h1 : ¬((k, v).1 = k') := h
      have h2 : ¬(e.1 = k') := fun hc => h (he.symm.trans hc)
      rw [if_neg h1, if_neg h2]
    · simp only [ainsert, if_neg he]
      rw [alookup, alookup, ih]

theorem ainsert_fst (l : List (κ × α)) (k : κ) (v : α) :
    (ainsert l k v).1 = alookup l k := by
  induction l with
  | nil => simp [alookup, ainsert]
  | cons e t ih =>
    by_cases h : e.1 = k
    · simp [ainsert, alookup, h]
    · simp [ainsert, alookup, h, ih]

theorem mem_ainsert {l : List (κ × α)} {k : κ} {v : α} {x : κ × α}
    (h : x ∈ (ainsert l k v).2) : x = (k, v) ∨ x ∈ l := by
  induction l with
  | nil => simp only [ainsert, List.mem_singleton] at h; exact .inl h
  | cons e t ih =>
    by_cases he : e.1 = k
    · simp only [ainsert, if_pos he, List.mem_cons] at h
      rcases h with h | h
      · exact .inl h
      · exact .inr (by simp [h])
    · simp only [ainsert, if_neg he, List.mem_cons] at h
      rcases h with h | h
      · exact .inr (by simp [h])
      · rcases ih h with h' | h'
        · exact .inl h'
        · exact .inr (by simp [h'])

theorem alookup_eq_none_iff (l : List (κ × α)) (k : κ) :
    alookup l k = none ↔ k ∉ l.map Prod.fst := by
  induction l with
  | nil => simp [alookup]
  | cons e t ih =>
    rw [alookup]
    by_cases he : e.1 = k
    · simp [if_pos he, he]
    · simp only [if_neg he, ih, List.map_cons, List.mem_cons]
      constructor
      · rintro hn (h | h)
        · exact he h.symm
        · exact hn h
      · intro hn h
        exact hn (.inr h)

theorem alookup_aerase_self (l : List (κ × α)) (k : κ)
    (hnd : (l.map Prod.fst).Nodup) : alookup (aerase l k) k = none := by
  induction l with
  | nil => simp [alookup, aerase]
  | cons e t ih =>
    simp only [List.map_cons, List.nodup_cons] at hnd
    by_cases he : e.1 = k
    · rw [aerase, if_pos he]
      rw [alookup_eq_none_iff]
      rw [← he]
      exact hnd.1
    · rw [aerase, if_neg he, alookup, if_neg he]
      exact ih hnd.2

theorem alookup_aerase_ne (l : List (κ × α)) (k k' : κ) (h : k ≠ k') :
    alookup (aerase l k) k' = alookup l k' := by
  induction l with
  | nil => simp [aerase]
  | cons e t ih =>
    by_cases he : e.1 = k
    · rw [aerase, if_pos he, alookup, if_neg (fun hc => h (he.symm.trans hc) |>.elim)]
    · rw [aerase, if_neg he, alookup, alookup, ih]

theorem mem_aerase {l : List (κ × α)} {k : κ} {x : κ × α}
    (h : x ∈ aerase l k) : x ∈ l := by
  induction l with
  | nil => simp [aerase] at h
  | cons e t ih =>
    by_cases he : e.1 = k
    · rw [aerase, if_pos he] at h
      exact List.mem_cons_of_mem e h
    · rw [aerase, if_neg he] at h
      rcases List.mem_cons.mp h with h' | h'
      · simp [h']
      · exact List.mem_cons_of_mem e (ih h')

theorem ainsert_map_fst (l : List (κ × α)) (k : κ) (v : α) :
    (ainsert l k v).2.map Prod.fst =
      if (alookup l k).isSome then l.map Prod.fst else l.map Prod.fst ++ [k] := by
  induction l with
  | nil => simp [ainsert, alookup]
  | cons e t ih =>
    by_cases he : e.1 = k
    · subst he
      simp [ainsert, alookup]
    · simp only [ainsert, if_neg he, alookup, List.map_cons, ih]
      by_cases hs : (alookup t k).isSome
      · simp [hs]
      · simp [hs]

theorem ainsert_keys {l : List (κ × α)} (k : κ) (v : α)
    (h : (l.map Prod.fst).Nodup) : ((ainsert l k v).2.map Prod.fst).Nodup := by
  rw [ainsert_map_fst]
  by_cases hs : (alookup l k).isSome
  · simpa [hs]
  · rw [if_neg hs]
    have hk : k ∉ l.map Prod.fst := by
      rw [← alookup_eq_none_iff]
      exact Option.not_isSome_iff_eq_none.mp hs
    simp [List.nodup_append, h, hk]

theorem aerase_keys (l : List (κ × α)) (k : κ)
    (h : (l.map Prod.fst).Nodup) : ((aerase l k).map Prod.fst).Nodup := by
  induction l with
  | nil => simp [aerase]
  | cons e t ih =>
    simp only [List.map_cons, List.nodup_cons] at h
    by_cases he : e.1 = k
    · rw [aerase, if_pos he]
      exact h.2
    · rw [aerase, if_neg he]
      simp only [List.map_cons, List.nodup_cons]
      refine ⟨fun hm => ?_, ih h.2⟩
      rcases List.mem_map.mp hm with ⟨x, hx, hfx⟩
      exact h.1 (List.mem_map.mpr ⟨x, mem_aerase hx, hfx⟩)

theorem alookup_isSome_of_mem {l : List (κ × α)} {x : κ × α} (h : x ∈ l) :
    (alookup l x.1).isSome := by
  induction l with
  | nil => simp at h
  | cons e t ih =>
    rcases List.mem_cons.mp h with h' | h'
    · subst h'
      simp [alookup]
    · rw [alookup]
      by_cases he : e.1 = x.1
      · simp [he]
      · rw [if_neg he]
        exact ih h'

theorem alookup_mem {l : List (κ × α)} {k : κ} {v : α} (h : alookup l k = some v) :
    (k, v) ∈ l := by
  induction l with
  | nil => simp [alookup] at h
  | cons e t ih =>
    rw [alookup] at h
    split at h
    · rename_i he
      obtain rfl := (Option.some.injEq _ _).mp h
      exact List.mem_cons.mpr (.inl (by rw [← he]))
    · exact List.mem_cons_of_mem e (ih h)

theorem mem_alookup_of_nodup {l : List (κ × α)} {x : κ × α}
    (hnd : (l.map Prod.fst).Nodup) (h : x ∈ l) : alookup l x.1 = some x.2 := by
  induction l with
  | nil => simp at h
  | cons e t ih =>
    simp only [List.map_cons, List.nodup_cons] at hnd
    rcases List.mem_cons.mp h with h' | h'
    · subst h'
      simp [alookup]
    · rw [alookup]
      have hne : ¬e.1 = x.1 := by
        intro hc
        exact hnd.1 (List.mem_map.mpr ⟨x, h', hc.symm⟩)
      rw [if_neg hne]
      exact ih hnd.2 h'

end AList

/-! ## Well-formedness of store states -/

/-- All elements are bytes (< 256). -/
def bytesOk (b : Bytes) : Prop := ∀ x ∈ b, x < 256

/-- The strings carried by an `Op`. -/
def opStrings : Op → Bytes
  | .set k v => k ++ v
  | .rm k => k

/-- An `Op` as the store writes it: length-valid strings made of bytes. -/
def opOk (op : Op) : Prop := ValidOp op ∧ bytesOk (opStrings op)

instance : DecidablePred bytesOk := fun b => by unfold bytesOk; infer_instance

instance : DecidablePred opOk := fun op => by unfold opOk; infer_instance

/-- Contents of a log: the concatenation of encoded records. -/
def opsBytes (ops : List Op) : Bytes := (ops.map encodeOp).flatten

theorem opsBytes_nil : opsBytes [] = [] := rfl

theorem opsBytes_cons (op : Op) (ops : List Op) :
    opsBytes (op :: ops) = encodeOp op ++ opsBytes ops := by
  simp [opsBytes]

theorem opsBytes_append (l1 l2 : List Op) :
    opsBytes (l1 ++ l2) = opsBytes l1 ++ opsBytes l2 := by
  simp [opsBytes]

theorem opsBytes_bytesOk {ops : List Op} (h : ∀ op ∈ ops, opOk op) :
    bytesOk (opsBytes ops) := by
  induction ops with
  | nil => intro x hx; simp [opsBytes_nil] at hx
  | cons op t ih =>
    intro x hx
    rw [opsBytes_cons] at hx
    rcases List.mem_append.mp hx with hx | hx
    · have h2 := (h op (by simp)).2
      refine encodeOp_bytes_lt op ?_ x hx
      cases op <;> exact h2
    · exact ih (fun o ho => h o (by simp [ho])) x hx

theorem leValue_lt {c : Bytes} (h : bytesOk c) : leValue c < 256 ^ c.length := by
  induction c with
  | nil => simp [leValue]
  | cons b t ih =>
    have hb : b < 256 := h b (by simp)
    have ht : leValue t < 256 ^ t.length := ih (fun x hx => h x (by simp [hx]))
    simp only [leValue, List.length_cons, pow_succ']
    calc b + 256 * leValue t < 256 + 256 * leValue t := by omega
      _ = 256 * (leValue t + 1) := by ring
      _ ≤ 256 * 256 ^ t.length := by
          have : leValue t + 1 ≤ 256 ^ t.length := ht
          exact Nat.mul_le_mul_left 256 this

theorem bytesOk_take {b : Bytes} (h : bytesOk b) (n : Nat) : bytesOk (b.take n) :=
  fun x hx => h x (List.take_subset n b hx)

theorem bytesOk_drop {b : Bytes} (h : bytesOk b) (n : Nat) : bytesOk (b.drop n) :=
  fun x hx => h x (List.drop_subset n b hx)

theorem bytesOk_of_readBytes {n : Nat} {b : Bytes} {p : Bytes × Bytes}
    (hp : readBytes n b = some p) (h : bytesOk b) : bytesOk p.1 ∧ bytesOk p.2 := by
  unfold readBytes at hp
  split at hp
  · obtain rfl := (Option.some.injEq _ _).mp hp |>.symm
    exact ⟨bytesOk_take h n, bytesOk_drop h n⟩
  · exact absurd hp (by simp)

theorem bytesOk_of_readLe {w : Nat} {b : Bytes} {t : Nat × Bytes}
    (ht : readLe w b = some t) (h : bytesOk b) : t.1 < 256 ^ w ∧ bytesOk t.2 := by
  unfold readLe at ht
  cases hr : readBytes w b with
  | none => rw [hr] at ht; exact absurd ht (by simp)
  | some p =>
    rw [hr] at ht
    simp only [Option.map_some'] at ht
    obtain ⟨hb1, hb2⟩ := bytesOk_of_readBytes hr h
    have hlen := (readBytes_length hr).2
    injection ht with ht
    subst ht
    exact ⟨by simpa [hlen] using leValue_lt hb1, hb2⟩

/-- A record decoded from bytes is one the store could have written: its
strings are length-valid bytes. -/
theorem decodeOp_opOk {b : Bytes} {op : Op} {rest : Bytes}
    (h : decodeOp b = some (op, rest)) (hb : bytesOk b) : opOk op := by
  have hcap : (256 : Nat) ^ 8 = U64CAP := by norm_num [U64CAP]
  unfold decodeOp at h
  cases h4 : readLe 4 b with
  | none => rw [h4] at h; exact absurd h (by simp)
  | some t =>
    rw [h4] at h
    simp only [Option.some_bind] at h
    have hb1 := (bytesOk_of_readLe h4 hb).2
    by_cases ht0 : t.1 = 0
    · rw [if_pos ht0] at h
      cases h8 : readLe 8 t.2 with
      | none => rw [h8] at h; exact absurd h (by simp)
      | some kl =>
        rw [h8] at h
        simp only [Option.some_bind] at h
        obtain ⟨hkl, hb2⟩ := bytesOk_of_readLe h8 hb1
        cases hkb : readBytes kl.1 kl.2 with
        | none => rw [hkb] at h; exact absurd h (by simp)
        | some kp =>
          rw [hkb] at h
          simp only [Option.some_bind] at h
          obtain ⟨hbk, hb3⟩ := bytesOk_of_readBytes hkb hb2
          have hklen := (readBytes_length hkb).2
          cases h8' : readLe 8 kp.2 with
          | none => rw [h8'] at h; exact absurd h (by simp)
          | some vl =>
            rw [h8'] at h
            simp only [Option.some_bind] at h
            obtain ⟨hvl, hb4⟩ := bytesOk_of_readLe h8' hb3
            cases hvb : readBytes vl.1 vl.2 with
            | none => rw [hvb] at h; exact absurd h (by simp)
            | some vp =>
              rw [hvb] at h
              simp only [Option.some_bind, Option.some.injEq, Prod.mk.injEq] at h
              obtain ⟨h1, _⟩ := h
              obtain ⟨hbv, _⟩ := bytesOk_of_readBytes hvb hb4
              have hvlen := (readBytes_length hvb).2
              subst h1
              refine ⟨⟨by omega, by omega⟩, ?_⟩
              intro x hx
              rcases List.mem_append.mp hx with hx | hx
              · exact hbk x hx
              · exact hbv x hx
    · rw [if_neg ht0] at h
      by_cases ht1 : t.1 = 1
      · rw [if_pos ht1] at h
        cases h8 : readLe 8 t.2 with
        | none => rw [h8] at h; exact absurd h (by simp)
        | some kl =>
          rw [h8] at h
          simp only [Option.some_bind] at h
          obtain ⟨hkl, hb2⟩ := bytesOk_of_readLe h8 hb1
          cases hkb : readBytes kl.1 kl.2 with
          | none => rw [hkb] at h; exact absurd h (by simp)
          | some kp =>
            rw [hkb] at h
            simp only [Option.some_bind, Option.some.injEq, Prod.mk.injEq] at h
            obtain ⟨h1, _⟩ := h
            obtain ⟨hbk, _⟩ := bytesOk_of_readBytes hkb hb2
            have hklen := (readBytes_length hkb).2
            subst h1
            exact ⟨by simp only [ValidOp]; omega, hbk⟩
      · rw [if_neg ht1] at h
        exact absurd h (by simp)

/-- The live value of a key: the value of the `Set` record its index entry
points at, read (as `compact` does) from the file the pointer names. -/
def HasVal (s : SharedKvStore) (k v : Bytes) : Prop :=
  ∃ p r, alookup s.index k = some p ∧
    decodeOp ((lookupFile s.dir p.file_num).drop p.pos) = some (.set k v, r)

/-- Well-formed store state: the active log exists; file numbers never
exceed `monotonic`; directory and index keys are unique; files contain
bytes; and every index entry points at a `Set` record for its own key in
the file the pointer names.  Every state reachable from `KvStore::open`
on a directory the store produced satisfies this. -/
structure Wf (s : SharedKvStore) : Prop where
  active_exists : (alookup s.dir s.monotonic).isSome
  keys_le : ∀ e ∈ s.dir, e.1 ≤ s.monotonic
  dir_nodup : (s.dir.map Prod.fst).Nodup
  idx_nodup : (s.index.map Prod.fst).Nodup
  files_bytes : ∀ e ∈ s.dir, bytesOk e.2
  entries : ∀ e ∈ s.index, ∃ v r,
    decodeOp ((lookupFile s.dir e.2.file_num).drop e.2.pos) = some (.set e.1 v, r)

theorem lookupFile_updateFile_self (d : Dir) (n : Nat) (b : Bytes) :
    lookupFile (updateFile d n b) n = b := by
  simp [lookupFile, updateFile, alookup_ainsert_self]

theorem lookupFile_updateFile_ne (d : Dir) {n m : Nat} (b : Bytes) (h : n ≠ m) :
    lookupFile (updateFile d n b) m = lookupFile d m := by
  simp [lookupFile, updateFile, alookup_ainsert_ne d n m b h]

theorem lookupFile_bytesOk {s : SharedKvStore} (h : Wf s) (n : Nat) :
    bytesOk (lookupFile s.dir n) := by
  unfold lookupFile
  cases hl : alookup s.dir n with
  | none => simp [bytesOk]
  | some b =>
    simpa using h.files_bytes (n, b) (alookup_mem hl)

theorem value_at_pos_of_decode {reader : Bytes} {pos : Nat} {k v r : Bytes}
    (h : decodeOp (reader.drop pos) = some (.set k v, r)) :
    value_at_pos reader pos = .ok v := by
  rw [value_at_pos, h]

theorem value_at_pos_ok {reader : Bytes} {pos : Nat} {v : Bytes}
    (h : value_at_pos reader pos = .ok v) :
    ∃ k r, decodeOp (reader.drop pos) = some (.set k v, r) := by
  unfold value_at_pos at h
  cases hd : decodeOp (reader.drop pos) with
  | none => rw [hd] at h; exact absurd h (by simp)
  | some p =>
    rw [hd] at h
    obtain ⟨op, rest⟩ := p
    cases op with
    | set k v' =>
      simp only [Except.ok.injEq] at h
      subst h
      exact ⟨k, rest, rfl⟩
    | rm k => exact absurd h (by simp)

/-- Under `Wf`, the value `compact` reads for an entry is the entry's live
value. -/
theorem readVal_of_entry {s : SharedKvStore} (hwf : Wf s) {e : Bytes × LogPtr}
    (he : e ∈ s.index) :
    ∃ v r, readVal s.dir (lookupFile s.dir s.monotonic) s.monotonic e.2 = .ok v ∧
      decodeOp ((lookupFile s.dir e.2.file_num).drop e.2.pos) = some (.set e.1 v, r) := by
  obtain ⟨v, r, hd⟩ := hwf.entries e he
  refine ⟨v, r, ?_, hd⟩
  unfold readVal
  by_cases hf : e.2.file_num = s.monotonic
  · rw [if_pos hf, ← hf]
    exact value_at_pos_of_decode hd
  · rw [if_neg hf]
    exact value_at_pos_of_decode hd

/-! ## Compaction -/

theorem ainsert_of_not_mem {κ α : Type} [DecidableEq κ] {l : List (κ × α)} {k : κ}
    (h : k ∉ l.map Prod.fst) (v : α) : ainsert l k v = (none, l ++ [(k, v)]) := by
  induction l with
  | nil => simp [ainsert]
  | cons e t ih =>
    simp only [List.map_cons, List.mem_cons] at h
    push_neg at h
    rw [ainsert, if_neg (fun hc => h.1 hc.symm), ih h.2]
    rfl

theorem aerase_of_not_mem {κ α : Type} [DecidableEq κ] {l : List (κ × α)} {k : κ}
    (h : k ∉ l.map Prod.fst) : aerase l k = l := by
  induction l with
  | nil => simp [aerase]
  | cons e t ih =>
    simp only [List.map_cons, List.mem_cons] at h
    push_neg at h
    rw [aerase, if_neg (fun hc => h.1 hc.symm), ih h.2]

theorem alookup_isSome_iff {κ α : Type} [DecidableEq κ] (l : List (κ × α)) (k : κ) :
    (alookup l k).isSome ↔ k ∈ l.map Prod.fst := by
  rw [← not_iff_not]
  simp only [Option.not_isSome_iff_eq_none]
  exact alookup_eq_none_iff l k

/-- Spec-level form of the replay loop: process a list of records with
their positions computed from cumulative encoded sizes.  `replay_loop` on a
log of whole records reduces to this (proved below). -/
def replay_ops (fn : Nat) : Nat → List Op → Index × Nat → Index × Nat
  | _, [], st => st
  | pos, op :: t, st => replay_ops fn (pos + (encodeOp op).length) t (replay_record fn pos op st)

/-- Characterization of the compaction loop when every read succeeds: no
error; the new log gains exactly one valid `Set` record per entry; every
rewritten entry points into the new log at a `Set` record carrying its old
value; and replaying the new records rebuilds exactly the rewritten index
(used for reopen idempotence). -/
theorem compactLoop_ok (dir : Dir) (active : Bytes) (mono newMono : Nat) :
    ∀ (entries : Index) (acc : Bytes),
    (∀ e ∈ entries, ∃ v, readVal dir active mono e.2 = .ok v ∧ opOk (.set e.1 v)) →
    ((entries.map Prod.fst).Nodup) →
    ∃ (out : Index) (ops' : List Op),
      compactLoop dir active mono newMono entries acc = (out, acc ++ opsBytes ops', none) ∧
      out.map Prod.fst = entries.map Prod.fst ∧
      (∀ op ∈ ops', opOk op) ∧
      (∀ e' ∈ out, e'.2.file_num = newMono ∧ ∃ p₀ v r,
        (e'.1, p₀) ∈ entries ∧ readVal dir active mono p₀ = .ok v ∧
        decodeOp ((acc ++ opsBytes ops').drop e'.2.pos) = some (.set e'.1 v, r)) ∧
      (∀ (idx0 : Index) (c : Nat), (∀ x ∈ idx0, x.1 ∉ entries.map Prod.fst) →
        replay_ops newMono acc.length ops' (idx0, c) = (idx0 ++ out, c)) := by
  intro entries
  induction entries with
  | nil =>
    intro acc _ _
    refine ⟨[], [], ?_, by simp, by simp, by simp, ?_⟩
    · simp [compactLoop, opsBytes_nil]
    · intro idx0 c _
      simp [replay_ops]
  | cons e rest ih =>
    intro acc hreads hnd
    obtain ⟨v, hv, hop⟩ := hreads e (by simp)
    simp only [List.map_cons, List.nodup_cons] at hnd
    obtain ⟨out_t, ops_t, heq, hkeys, hops, hout, hreplay⟩ :=
      ih (acc ++ encodeOp (.set e.1 v))
        (fun x hx => hreads x (by simp [hx])) hnd.2
    refine ⟨(e.1, ⟨newMono, acc.length⟩) :: out_t, .set e.1 v :: ops_t, ?_, ?_, ?_, ?_, ?_⟩
    · rw [compactLoop, hv]
      simp only [heq, opsBytes_cons, List.append_assoc]
    · simp [hkeys]
    · intro op hopm
      rcases List.mem_cons.mp hopm with h' | h'
      · rw [h']; exact hop
      · exact hops op h'
    · intro e' he'
      rcases List.mem_cons.mp he' with h' | h'
      · subst h'
        refine ⟨rfl, e.2, v, opsBytes ops_t, by simp, hv, ?_⟩
        show decodeOp ((acc ++ opsBytes (Op.set e.1 v :: ops_t)).drop acc.length) =
          some (.set e.1 v, opsBytes ops_t)
        rw [opsBytes_cons, List.drop_left]
        exact decodeOp_encodeOp hop.1 (opsBytes ops_t)
      · obtain ⟨hfn, p₀, v₀, r, hmem, hrv, hdec⟩ := hout e' h'
        refine ⟨hfn, p₀, v₀, r, by simp [hmem], hrv, ?_⟩
        rw [opsBytes_cons, ← List.append_assoc]
        exact hdec
    · intro idx0 c hdisj
      rw [replay_ops, replay_record]
      have hnotm : e.1 ∉ idx0.map Prod.fst := by
        intro hc
        rcases List.mem_map.mp hc with ⟨x, hx, hfx⟩
        exact hdisj x hx (by simp [hfx])
      rw [ainsert_of_not_mem hnotm]
      show replay_ops newMono (acc.length + (encodeOp (.set e.1 v)).length) ops_t
          (idx0 ++ [(e.1, ⟨newMono, acc.length⟩)], c) = _
      have hlen : acc.length + (encodeOp (.set e.1 v)).length =
          (acc ++ encodeOp (.set e.1 v)).length := by simp
      have hdisj' : ∀ x ∈ idx0 ++ [(e.1, (⟨newMono, acc.length⟩ : LogPtr))],
          x.1 ∉ rest.map Prod.fst := by
        intro x hx
        rcases List.mem_append.mp hx with h' | h'
        · intro hc
          exact hdisj x h' (by simp [hc])
        · simp only [List.mem_singleton] at h'
          subst h'
          exact hnd.1
      rw [hlen, hreplay _ c hdisj']
      simp

/-- The file `<monotonic+1>.log` does not exist yet in a well-formed store. -/
theorem newfile_empty {s : SharedKvStore} (hwf : Wf s) :
    lookupFile s.dir (s.monotonic + 1) = [] := by
  unfold lookupFile
  have : alookup s.dir (s.monotonic + 1) = none := by
    rw [alookup_eq_none_iff]
    intro hc
    rcases List.mem_map.mp hc with ⟨x, hx, hfx⟩
    have := hwf.keys_le x hx
    omega
  rw [this]
  rfl

/-- Compaction on a well-formed store succeeds, advances `monotonic`,
zeroes the opportunity counter, points every entry into the new active
log, and preserves exactly the keys and live values. -/
theorem compact_ok {s : SharedKvStore} (hwf : Wf s) :
    ∃ s', SharedKvStore.compact s = (.ok (), s') ∧ Wf s' ∧
      s'.monotonic = s.monotonic + 1 ∧ s'.compactions = 0 ∧
      (∀ e ∈ s'.index, e.2.file_num = s'.monotonic) ∧
      (∀ k, (alookup s'.index k).isSome ↔ (alookup s.index k).isSome) ∧
      (∀ k v, HasVal s' k v ↔ HasVal s k v) := by
  have hreads : ∀ e ∈ s.index, ∃ v,
      readVal s.dir (lookupFile s.dir s.monotonic) s.monotonic e.2 = .ok v ∧
      opOk (.set e.1 v) := by
    intro e he
    obtain ⟨v, r, hrv, hdec⟩ := readVal_of_entry hwf he
    exact ⟨v, hrv, decodeOp_opOk hdec (bytesOk_drop (lookupFile_bytesOk hwf _) _)⟩
  obtain ⟨out, ops', heq, hkeys, hops, hout, _⟩ :=
    compactLoop_ok s.dir (lookupFile s.dir s.monotonic) s.monotonic (s.monotonic + 1)
      s.index (lookupFile s.dir (s.monotonic + 1)) hreads hwf.idx_nodup
  rw [newfile_empty hwf] at heq hout
  simp only [List.nil_append] at heq hout
  have hnewbytes : bytesOk (opsBytes ops') := opsBytes_bytesOk hops
  have hlookup' : alookup
      (eraseFile (updateFile s.dir (s.monotonic + 1) (opsBytes ops')) s.monotonic)
      (s.monotonic + 1) = some (opsBytes ops') := by
    unfold eraseFile updateFile
    rw [alookup_aerase_ne _ _ _ (by omega), alookup_ainsert_self]
  have hlookupFile' : lookupFile
      (eraseFile (updateFile s.dir (s.monotonic + 1) (opsBytes ops')) s.monotonic)
      (s.monotonic + 1) = opsBytes ops' := by
    unfold lookupFile
    rw [hlookup']
    rfl
  refine ⟨⟨eraseFile (updateFile s.dir (s.monotonic + 1) (opsBytes ops')) s.monotonic,
      out, 0, s.monotonic + 1⟩, ?_, ?_, rfl, rfl, fun e he => (hout e he).1, ?_, ?_⟩
  · simp only [SharedKvStore.compact]
    rw [newfile_empty hwf, heq]
  · constructor
    · simp [hlookup']
    · intro e he
      rcases mem_ainsert (mem_aerase he) with h' | h'
      · rw [h']
      · exact Nat.le_succ_of_le (hwf.keys_le e h')
    · exact aerase_keys _ _ (ainsert_keys _ _ hwf.dir_nodup)
    · show (out.map Prod.fst).Nodup
      rw [hkeys]
      exact hwf.idx_nodup
    · intro e he
      rcases mem_ainsert (mem_aerase he) with h' | h'
      · rw [h']
        exact hnewbytes
      · exact hwf.files_bytes e h'
    · intro e he
      obtain ⟨hfn, p₀, v, r, hmem, hrv, hdec⟩ := hout e he
      refine ⟨v, r, ?_⟩
      show decodeOp ((lookupFile _ e.2.file_num).drop e.2.pos) = _
      rw [hfn, hlookupFile']
      exact hdec
  · intro k
    show (alookup out k).isSome ↔ _
    rw [alookup_isSome_iff, alookup_isSome_iff, hkeys]
  · intro k v
    constructor
    · rintro ⟨p', r', hl', hd'⟩
      obtain ⟨hfn, p₀, v₀, r₀, hmem, hrv, hdec⟩ := hout (k, p') (alookup_mem hl')
      dsimp only at hfn hmem hdec hl' hd'
      rw [hfn, hlookupFile'] at hd'
      rw [hd'] at hdec
      simp only [Option.some.injEq, Prod.mk.injEq, Op.set.injEq] at hdec
      obtain ⟨⟨_, hvv⟩, _⟩ := hdec
      obtain ⟨v₁, r₁, hrv₁, hdec₁⟩ := readVal_of_entry hwf hmem
      have hv01 : v₀ = v₁ := by
        rw [hrv] at hrv₁
        simpa using hrv₁
      refine ⟨p₀, r₁, mem_alookup_of_nodup hwf.idx_nodup hmem, ?_⟩
      rw [← hv01, ← hvv] at hdec₁
      exact hdec₁
    · rintro ⟨p, r, hl, hd⟩
      have hk : (alookup out k).isSome := by
        rw [alookup_isSome_iff, hkeys, ← alookup_isSome_iff, hl]
        rfl
      obtain ⟨p', hl'⟩ := Option.isSome_iff_exists.mp hk
      obtain ⟨hfn, p₀, v₀, r₀, hmem, hrv, hdec⟩ := hout (k, p') (alookup_mem hl')
      dsimp only at hfn hmem hdec
      have hp0 : p = p₀ := by
        have hl0 := mem_alookup_of_nodup hwf.idx_nodup hmem
        dsimp only at hl0
        rw [hl] at hl0
        simpa using hl0
      subst hp0
      obtain ⟨v₁, r₁, hrv₁, hdec₁⟩ := readVal_of_entry hwf hmem
      dsimp only at hdec₁
      have hv01 : v₀ = v₁ := by
        rw [hrv] at hrv₁
        simpa using hrv₁
      have hvv : v₁ = v := by
        rw [hdec₁] at hd
        simp only [Option.some.injEq, Prod.mk.injEq, Op.set.injEq] at hd
        exact hd.1.2
      refine ⟨p', r₀, hl', ?_⟩
      show decodeOp ((lookupFile _ p'.file_num).drop p'.pos) = _
      rw [hfn, hlookupFile', ← hvv, ← hv01]
      exact hdec

/-! ## Write paths -/

theorem bytesOk_append {a b : Bytes} (ha : bytesOk a) (hb : bytesOk b) :
    bytesOk (a ++ b) := by
  intro x hx
  rcases List.mem_append.mp hx with h | h
  · exact ha x h
  · exact hb x h

/-- A record fully contained in a log still decodes, to the same value,
after bytes are appended to the log. -/
theorem decode_drop_append {b : Bytes} {pos : Nat} {op : Op} {r : Bytes} (tail : Bytes)
    (h : decodeOp (b.drop pos) = some (op, r)) :
    decodeOp ((b ++ tail).drop pos) = some (op, r ++ tail) := by
  have hpos : pos ≤ b.length := by
    by_contra hc
    rw [List.drop_eq_nil_of_le (by omega)] at h
    rw [decodeOp_nil] at h
    exact absurd h (by simp)
  rw [List.drop_append_of_le_length hpos]
  exact decodeOp_append h tail

/-- Contents of the directory after extending the active log. -/
theorem lookupFile_append (s : SharedKvStore) (tail : Bytes) (n : Nat) :
    lookupFile (updateFile s.dir s.monotonic (lookupFile s.dir s.monotonic ++ tail)) n
      = if n = s.monotonic then lookupFile s.dir n ++ tail else lookupFile s.dir n := by
  by_cases h : n = s.monotonic
  · subst h
    rw [if_pos rfl, lookupFile_updateFile_self]
  · rw [if_neg h, lookupFile_updateFile_ne _ _ (fun hc => h hc.symm)]

/-- An entry of a well-formed store decodes to a given value in the
extended log exactly when it does in the current log. -/
theorem entry_decode_append {s : SharedKvStore} (hwf : Wf s) (tail : Bytes)
    {p : LogPtr} {k' v' : Bytes} (hp : (k', p) ∈ s.index) :
    (∃ r, decodeOp ((lookupFile (updateFile s.dir s.monotonic
        (lookupFile s.dir s.monotonic ++ tail)) p.file_num).drop p.pos)
        = some (.set k' v', r)) ↔
    (∃ r, decodeOp ((lookupFile s.dir p.file_num).drop p.pos) = some (.set k' v', r)) := by
  rw [show lookupFile (updateFile s.dir s.monotonic
      (lookupFile s.dir s.monotonic ++ tail)) p.file_num = _ from lookupFile_append s tail _]
  by_cases hf : p.file_num = s.monotonic
  · rw [if_pos hf]
    obtain ⟨v₀, r₀, hdec₀⟩ := hwf.entries (k', p) hp
    constructor
    · rintro ⟨r, hdec⟩
      have := decode_drop_append tail hdec₀
      rw [this] at hdec
      simp only [Option.some.injEq, Prod.mk.injEq, Op.set.injEq] at hdec
      exact ⟨r₀, by rw [hdec.1.2] at hdec₀; exact hdec₀⟩
    · rintro ⟨r, hdec⟩
      exact ⟨r ++ tail, decode_drop_append tail hdec⟩
  · rw [if_neg hf]

/-- The shared-state transition of the write path before any compaction:
log appended, index entry inserted. -/
def setState (s : SharedKvStore) (key value : Bytes) (c : Nat) : SharedKvStore :=
  ⟨updateFile s.dir s.monotonic (lookupFile s.dir s.monotonic ++ encodeOp (.set key value)),
   (ainsert s.index key ⟨s.monotonic, (lookupFile s.dir s.monotonic).length⟩).2,
   c, s.monotonic⟩

/-- `KvStore.set` in terms of `setState`. -/
theorem set_eq (s : SharedKvStore) (key value : Bytes) :
    KvStore.set s key value =
      if (alookup s.index key).isSome then
        SharedKvStore.compact_maybe (setState s key value ((s.compactions + 1) % 65536))
      else (.ok (), setState s key value s.compactions) := by
  simp only [KvStore.set, setState, ainsert_fst]

/-- The shared-state transition of the remove path (on a present key)
before any compaction: `Rm` appended, entry erased, counter bumped. -/
def removeState (s : SharedKvStore) (key : Bytes) : SharedKvStore :=
  ⟨updateFile s.dir s.monotonic (lookupFile s.dir s.monotonic ++ encodeOp (.rm key)),
   aerase s.index key, (s.compactions + 1) % 65536, s.monotonic⟩

/-- `KvStore.remove` in terms of `removeState`. -/
theorem remove_eq (s : SharedKvStore) (key : Bytes) :
    KvStore.remove s key =
      if (alookup s.index key).isNone then (.error (.keyNotFound key), s)
      else SharedKvStore.compact_maybe (removeState s key) := by
  simp only [KvStore.remove, removeState]

/-- The pre-compaction state of a `set` is well-formed, holds the new
value for the key at an entry pointing into the active log, and leaves all
other keys' presence and live values unchanged. -/
theorem setState_facts {s : SharedKvStore} (hwf : Wf s) {k v : Bytes}
    (hop : opOk (.set k v)) (c : Nat) :
    Wf (setState s k v c) ∧
    (∃ p, alookup (setState s k v c).index k = some p ∧
      p.file_num = (setState s k v c).monotonic ∧
      ∃ r, decodeOp ((lookupFile (setState s k v c).dir
        (setState s k v c).monotonic).drop p.pos) = some (.set k v, r)) ∧
    (∀ k', k' ≠ k → alookup (setState s k v c).index k' = alookup s.index k') ∧
    (∀ k' v', k' ≠ k → (HasVal (setState s k v c) k' v' ↔ HasVal s k' v')) ∧
    ((∀ e ∈ s.index, e.2.file_num = s.monotonic) →
      ∀ e ∈ (setState s k v c).index, e.2.file_num = (setState s k v c).monotonic) := by
  have hencb : bytesOk (encodeOp (.set k v)) := by
    refine encodeOp_bytes_lt _ ?_
    exact hop.2
  have hactive : bytesOk (lookupFile s.dir s.monotonic) := lookupFile_bytesOk hwf _
  have hkdec : ∃ r, decodeOp ((lookupFile (setState s k v c).dir s.monotonic).drop
      (lookupFile s.dir s.monotonic).length) = some (.set k v, r) := by
    refine ⟨[], ?_⟩
    show decodeOp ((lookupFile (updateFile s.dir s.monotonic _) s.monotonic).drop _) = _
    rw [lookupFile_updateFile_self, List.drop_left]
    have := decodeOp_encodeOp hop.1 ([])
    rwa [List.append_nil] at this
  refine ⟨?_, ?_, ?_, ?_, ?_⟩
  · constructor
    · show (alookup (updateFile s.dir s.monotonic _) s.monotonic).isSome
      rw [show updateFile s.dir s.monotonic _ = updateFile s.dir s.monotonic
        (lookupFile s.dir s.monotonic ++ encodeOp (.set k v)) from rfl]
      unfold updateFile
      rw [alookup_ainsert_self]
      rfl
    · intro e he
      rcases mem_ainsert he with h' | h'
      · rw [h']; exact Nat.le_refl _
      · exact hwf.keys_le e h'
    · exact ainsert_keys _ _ hwf.dir_nodup
    · exact ainsert_keys _ _ hwf.idx_nodup
    · intro e he
      rcases mem_ainsert he with h' | h'
      · rw [h']
        exact bytesOk_append hactive hencb
      · exact hwf.files_bytes e h'
    · intro e he
      rcases mem_ainsert he with h' | h'
      · subst h'
        obtain ⟨r, hr⟩ := hkdec
        exact ⟨v, r, hr⟩
      · obtain ⟨v₀, r₀, hdec₀⟩ := hwf.entries e h'
        obtain ⟨r₁, hdec₁⟩ :=
          (entry_decode_append hwf (encodeOp (.set k v)) (p := e.2) h').mpr ⟨r₀, hdec₀⟩
        exact ⟨v₀, r₁, hdec₁⟩
  · obtain ⟨r, hr⟩ := hkdec
    exact ⟨⟨s.monotonic, (lookupFile s.dir s.monotonic).length⟩,
      alookup_ainsert_self _ _ _, rfl, r, hr⟩
  · intro k' hk'
    exact alookup_ainsert_ne _ _ _ _ (fun hc => hk' hc.symm)
  · intro k' v' hk'
    unfold HasVal
    constructor
    · rintro ⟨p, r, hl, hd⟩
      have hl' : alookup (ainsert s.index k
          ⟨s.monotonic, (lookupFile s.dir s.monotonic).length⟩).2 k' = some p := hl
      rw [alookup_ainsert_ne _ _ _ _ (fun hc => hk' hc.symm)] at hl'
      have hmem : (k', p) ∈ s.index := alookup_mem hl'
      have hd₂ : decodeOp ((lookupFile (updateFile s.dir s.monotonic
          (lookupFile s.dir s.monotonic ++ encodeOp (.set k v))) p.file_num).drop p.pos)
          = some (.set k' v', r) := hd
      obtain ⟨r', hd'⟩ := (entry_decode_append hwf (encodeOp (.set k v)) hmem).mp ⟨r, hd₂⟩
      exact ⟨p, r', hl', hd'⟩
    · rintro ⟨p, r, hl, hd⟩
      have hmem : (k', p) ∈ s.index := alookup_mem hl
      obtain ⟨r', hd'⟩ := (entry_decode_append hwf (encodeOp (.set k v)) hmem).mpr ⟨r, hd⟩
      refine ⟨p, r', ?_, hd'⟩
      show alookup (ainsert s.index k
        ⟨s.monotonic, (lookupFile s.dir s.monotonic).length⟩).2 k' = some p
      rw [alookup_ainsert_ne _ _ _ _ (fun hc => hk' hc.symm)]
      exact hl
  · intro hpa e he
    rcases mem_ainsert he with h' | h'
    · rw [h']; exact rfl
    · exact hpa e h'

/-- The pre-compaction state of a successful `remove` is well-formed, no
longer holds the key, and leaves other keys' presence and live values
unchanged. -/
theorem removeState_facts {s : SharedKvStore} (hwf : Wf s) {k : Bytes}
    (hop : opOk (.rm k)) :
    Wf (removeState s k) ∧
    alookup (removeState s k).index k = none ∧
    (∀ k', k' ≠ k → alookup (removeState s k).index k' = alookup s.index k') ∧
    (∀ k' v', k' ≠ k → (HasVal (removeState s k) k' v' ↔ HasVal s k' v')) ∧
    ((∀ e ∈ s.index, e.2.file_num = s.monotonic) →
      ∀ e ∈ (removeState s k).index, e.2.file_num = (removeState s k).monotonic) := by
  have hencb : bytesOk (encodeOp (.rm k)) := by
    refine encodeOp_bytes_lt _ ?_
    exact hop.2
  have hactive : bytesOk (lookupFile s.dir s.monotonic) := lookupFile_bytesOk hwf _
  refine ⟨?_, ?_, ?_, ?_, ?_⟩
  · constructor
    · show (alookup (updateFile s.dir s.monotonic _) s.monotonic).isSome
      unfold updateFile
      rw [alookup_ainsert_self]
      rfl
    · intro e he
      rcases mem_ainsert he with h' | h'
      · rw [h']; exact Nat.le_refl _
      · exact hwf.keys_le e h'
    · exact ainsert_keys _ _ hwf.dir_nodup
    · exact aerase_keys _ _ hwf.idx_nodup
    · intro e he
      rcases mem_ainsert he with h' | h'
      · rw [h']
        exact bytesOk_append hactive hencb
      · exact hwf.files_bytes e h'
    · intro e he
      have h' : e ∈ s.index := mem_aerase he
      obtain ⟨v₀, r₀, hdec₀⟩ := hwf.entries e h'
      obtain ⟨r₁, hdec₁⟩ :=
        (entry_decode_append hwf (encodeOp (.rm k)) (p := e.2) h').mpr ⟨r₀, hdec₀⟩
      exact ⟨v₀, r₁, hdec₁⟩
  · exact alookup_aerase_self _ _ hwf.idx_nodup
  · intro k' hk'
    exact alookup_aerase_ne _ _ _ (fun hc => hk' hc.symm)
  · intro k' v' hk'
    unfold HasVal
    constructor
    · rintro ⟨p, r, hl, hd⟩
      have hl' : alookup (aerase s.index k) k' = some p := hl
      rw [alookup_aerase_ne _ _ _ (fun hc => hk' hc.symm)] at hl'
      have hmem : (k', p) ∈ s.index := alookup_mem hl'
      have hd₂ : decodeOp ((lookupFile (updateFile s.dir s.monotonic
          (lookupFile s.dir s.monotonic ++ encodeOp (.rm k))) p.file_num).drop p.pos)
          = some (.set k' v', r) := hd
      obtain ⟨r', hd'⟩ := (entry_decode_append hwf (encodeOp (.rm k)) hmem).mp ⟨r, hd₂⟩
      exact ⟨p, r', hl', hd'⟩
    · rintro ⟨p, r, hl, hd⟩
      have hmem : (k', p) ∈ s.index := alookup_mem hl
      obtain ⟨r', hd'⟩ := (entry_decode_append hwf (encodeOp (.rm k)) hmem).mpr ⟨r, hd⟩
      refine ⟨p, r', ?_, hd'⟩
      show alookup (aerase s.index k) k' = some p
      rw [alookup_aerase_ne _ _ _ (fun hc => hk' hc.symm)]
      exact hl
  · intro hpa e he
    exact hpa e (mem_aerase he)

/-- All index entries point into the active log file.  This holds in every
state reachable from opening a single-file directory (in particular a fresh
one); it is exactly the situation in which the `get` read path, which
always reads the active log, is correct. -/
def PointsActive (s : SharedKvStore) : Prop :=
  ∀ e ∈ s.index, e.2.file_num = s.monotonic

/-- `compact_maybe` on a well-formed store succeeds and preserves keys and
live values; it compacts exactly when the counter has reached the limit. -/
theorem compact_maybe_ok {s : SharedKvStore} (hwf : Wf s) :
    ∃ s', SharedKvStore.compact_maybe s = (.ok (), s') ∧ Wf s' ∧
      (∀ k, (alookup s'.index k).isSome ↔ (alookup s.index k).isSome) ∧
      (∀ k v, HasVal s' k v ↔ HasVal s k v) ∧
      (PointsActive s → PointsActive s') ∧
      s'.compactions = (if COMPACTION_LIMIT ≤ s.compactions then 0 else s.compactions) := by
  unfold SharedKvStore.compact_maybe
  by_cases hc : COMPACTION_LIMIT ≤ s.compactions
  · rw [if_pos hc, if_pos hc]
    obtain ⟨s', heq, hwf', _, hcomp, hpa, hiso, hval⟩ := compact_ok hwf
    exact ⟨s', heq, hwf', hiso, hval, fun _ => hpa, hcomp⟩
  · rw [if_neg hc, if_neg hc]
    exact ⟨s, rfl, hwf, fun k => Iff.rfl, fun k v => Iff.rfl, fun h => h, rfl⟩

/-- A successful `set` on a well-formed store: the result is `Ok`, the
state stays well-formed, the key's entry points into the active log at a
`Set{key, value}` record, and every other key's presence and live value
are untouched. -/
theorem set_ok {s : SharedKvStore} (hwf : Wf s) {k v : Bytes}
    (hop : opOk (.set k v)) :
    ∃ s', KvStore.set s k v = (.ok (), s') ∧ Wf s' ∧
      (∃ p, alookup s'.index k = some p ∧ p.file_num = s'.monotonic ∧
        ∃ r, decodeOp ((lookupFile s'.dir s'.monotonic).drop p.pos) = some (.set k v, r)) ∧
      HasVal s' k v ∧
      (∀ k', k' ≠ k → ((alookup s'.index k').isSome ↔ (alookup s.index k').isSome)) ∧
      (∀ k' v', k' ≠ k → (HasVal s' k' v' ↔ HasVal s k' v')) ∧
      (PointsActive s → PointsActive s') := by
  rw [set_eq]
  by_cases hdisp : (alookup s.index k).isSome
  · rw [if_pos hdisp]
    obtain ⟨hwf₁, hkent, hother, hvals, hpa₁⟩ :=
      setState_facts hwf hop ((s.compactions + 1) % 65536)
    obtain ⟨p₁, hl₁, hf₁, r₁, hd₁⟩ := hkent
    obtain ⟨s', heq, hwf', hiso', hval', hpa', _⟩ := compact_maybe_ok hwf₁
    have hk' : HasVal s' k v :=
      (hval' k v).mpr ⟨p₁, r₁, hl₁, by rw [hf₁]; exact hd₁⟩
    obtain ⟨p', r', hl', hd'⟩ := hk'
    have hfn' : p'.file_num = s'.monotonic := by
      by_cases htr : COMPACTION_LIMIT ≤
          (setState s k v ((s.compactions + 1) % 65536)).compactions
      · have heq2 : SharedKvStore.compact (setState s k v ((s.compactions + 1) % 65536))
            = (.ok (), s') := by
          unfold SharedKvStore.compact_maybe at heq
          rw [if_pos htr] at heq
          exact heq
        obtain ⟨s'', heq'', _, _, _, hpa'', _, _⟩ := compact_ok hwf₁
        rw [heq''] at heq2
        obtain rfl : s'' = s' := congrArg Prod.snd heq2
        exact hpa'' (k, p') (alookup_mem hl')
      · have hs : s' = setState s k v ((s.compactions + 1) % 65536) := by
          unfold SharedKvStore.compact_maybe at heq
          rw [if_neg htr] at heq
          exact (congrArg Prod.snd heq).symm
        subst hs
        rw [hl₁] at hl'
        obtain rfl : p₁ = p' := by simpa using hl'
        exact hf₁
    refine ⟨s', heq, hwf', ⟨p', hl', hfn', r', by rw [← hfn']; exact hd'⟩,
      (hval' k v).mpr ⟨p₁, r₁, hl₁, by rw [hf₁]; exact hd₁⟩, ?_, ?_, ?_⟩
    · intro k' hk'
      rw [hiso' k', hother k' hk']
    · intro k' v' hk'
      rw [hval' k' v', hvals k' v' hk']
    · intro hpa
      exact hpa' (hpa₁ hpa)
  · rw [if_neg hdisp]
    obtain ⟨hwf₁, hkent, hother, hvals, hpa₁⟩ := setState_facts hwf hop s.compactions
    obtain ⟨p₁, hl₁, hf₁, r₁, hd₁⟩ := hkent
    refine ⟨setState s k v s.compactions, rfl, hwf₁,
      ⟨p₁, hl₁, hf₁, r₁, hd₁⟩,
      ⟨p₁, r₁, hl₁, by rw [hf₁]; exact hd₁⟩, ?_, ?_, ?_⟩
    · intro k' hk'
      rw [hother k' hk']
    · exact hvals
    · exact hpa₁

/-- A `remove` on a well-formed store: `KeyNotFound` (with the state
untouched) exactly when the key is absent; otherwise `Ok`, the key is gone,
and every other key's presence and live value are untouched. -/
theorem remove_ok {s : SharedKvStore} (hwf : Wf s) {k : Bytes}
    (hop : opOk (.rm k)) :
    ((alookup s.index k).isNone → KvStore.remove s k = (.error (.keyNotFound k), s)) ∧
    ((alookup s.index k).isSome →
      ∃ s', KvStore.remove s k = (.ok (), s') ∧ Wf s' ∧
        alookup s'.index k = none ∧
        (∀ k', k' ≠ k → ((alookup s'.index k').isSome ↔ (alookup s.index k').isSome)) ∧
        (∀ k' v', k' ≠ k → (HasVal s' k' v' ↔ HasVal s k' v')) ∧
        (PointsActive s → PointsActive s')) := by
  constructor
  · intro habs
    rw [remove_eq, if_pos habs]
  · intro hpres
    have hnn : ¬((alookup s.index k).isNone = true) := by
      intro hc
      rw [Option.isNone_iff_eq_none] at hc
      rw [hc] at hpres
      exact absurd hpres (by simp)
    rw [remove_eq, if_neg hnn]
    obtain ⟨hwf₁, hnone₁, hother, hvals, hpa₁⟩ := removeState_facts hwf hop
    obtain ⟨s', heq, hwf', hiso', hval', hpa', _⟩ := compact_maybe_ok hwf₁
    refine ⟨s', heq, hwf', ?_, ?_, ?_, ?_⟩
    · have hns : ¬(alookup s'.index k).isSome := by
        rw [hiso' k, hnone₁]
        simp
      simpa [Option.not_isSome_iff_eq_none] using hns
    · intro k' hk'
      rw [hiso' k', hother k' hk']
    · intro k' v' hk'
      rw [hval' k' v', hvals k' v' hk']
    · intro hpa
      exact hpa' (hpa₁ hpa)

/-- `get` on an absent key reports absence. -/
theorem get_none {s : SharedKvStore} {k : Bytes} (h : alookup s.index k = none) :
    KvStore.get s k = .ok none := by
  rw [KvStore.get, h]

/-- `get` on a key whose entry points into the active log at a `Set` record
returns that record's value. -/
theorem get_of_active_entry {s : SharedKvStore} {k v : Bytes} {p : LogPtr} {r : Bytes}
    (hl : alookup s.index k = some p)
    (hd : decodeOp ((lookupFile s.dir s.monotonic).drop p.pos) = some (.set k v, r)) :
    KvStore.get s k = .ok (some v) := by
  rw [KvStore.get, hl]
  simp only [value_at_pos_of_decode hd]

/-! ## Replay and reopening -/

theorem encodeOp_length_pos (op : Op) : 0 < (encodeOp op).length := by
  cases op <;> simp [encodeOp, leBytes_length]

/-- The fuel argument of `replay_loop` is irrelevant once it covers the
remaining bytes. -/
theorem replay_loop_fuel (fn total : Nat) :
    ∀ f1 f2 (rem : Bytes) (st : Index × Nat), rem.length ≤ f1 → rem.length ≤ f2 →
    replay_loop fn total f1 rem st = replay_loop fn total f2 rem st := by
  intro f1
  induction f1 with
  | zero =>
    intro f2 rem st h1 _
    have hnil : rem = [] := List.length_eq_zero.mp (Nat.le_zero.mp h1)
    subst hnil
    cases f2 with
    | zero => rfl
    | succ f2 => simp [replay_loop, decodeOp_nil]
  | succ f1 ih =>
    intro f2 rem st h1 h2
    cases hde : decodeOp rem with
    | none =>
      cases f2 with
      | zero =>
        have hnil : rem = [] := List.length_eq_zero.mp (Nat.le_zero.mp h2)
        subst hnil
        simp [replay_loop, decodeOp_nil]
      | succ f2 => simp [replay_loop, hde]
    | some pr =>
      obtain ⟨op, rest⟩ := pr
      have hlt := decodeOp_rest_lt hde
      cases f2 with
      | zero =>
        exfalso
        have hnil : rem = [] := List.length_eq_zero.mp (Nat.le_zero.mp h2)
        subst hnil
        rw [decodeOp_nil] at hde
        exact absurd hde (by simp)
      | succ f2 =>
        simp only [replay_loop, hde]
        exact ih f2 rest _ (by omega) (by omega)

/-- Replaying a log made of whole records, followed by anything, processes
those records at their positions and continues with the remainder. -/
theorem replay_loop_join (fn : Nat) :
    ∀ (ops : List Op) (rest : Bytes) (base fuel : Nat) (st : Index × Nat),
    (∀ op ∈ ops, ValidOp op) →
    (opsBytes ops ++ rest).length ≤ fuel →
    replay_loop fn (base + (opsBytes ops ++ rest).length) fuel (opsBytes ops ++ rest) st
      = replay_loop fn (base + (opsBytes ops ++ rest).length) rest.length rest
          (replay_ops fn base ops st) := by
  intro ops
  induction ops with
  | nil =>
    intro rest base fuel st _ hfuel
    simp only [opsBytes_nil, List.nil_append, replay_ops]
    exact replay_loop_fuel fn _ fuel rest.length rest st hfuel (Nat.le_refl _)
  | cons op t ih =>
    intro rest base fuel st hvalid hfuel
    have henc : opsBytes (op :: t) ++ rest = encodeOp op ++ (opsBytes t ++ rest) := by
      rw [opsBytes_cons, List.append_assoc]
    rw [henc] at hfuel ⊢
    have hpos : 0 < (encodeOp op).length := encodeOp_length_pos op
    cases fuel with
    | zero =>
      exfalso
      simp only [List.length_append] at hfuel
      omega
    | succ f =>
      have hdec : decodeOp (encodeOp op ++ (opsBytes t ++ rest))
          = some (op, opsBytes t ++ rest) :=
        decodeOp_encodeOp (hvalid op (by simp)) _
      simp only [replay_loop, hdec]
      have hsub : base + (encodeOp op ++ (opsBytes t ++ rest)).length
          - (encodeOp op ++ (opsBytes t ++ rest)).length = base := by omega
      rw [hsub, replay_ops]
      have htot : base + (encodeOp op ++ (opsBytes t ++ rest)).length
          = (base + (encodeOp op).length) + (opsBytes t ++ rest).length := by
        simp only [List.length_append]
        omega
      rw [htot]
      refine ih rest (base + (encodeOp op).length) f (replay_record fn base op st)
        (fun o ho => hvalid o (by simp [ho])) ?_
      simp only [List.length_append] at hfuel ⊢
      omega

/-- Replaying a file consisting of whole records from the start. -/
theorem replay_file_ops (fn : Nat) (ops : List Op) (st : Index × Nat)
    (hvalid : ∀ op ∈ ops, ValidOp op) :
    replay_file fn (opsBytes ops) st = replay_ops fn 0 ops st := by
  unfold replay_file
  have h := replay_loop_join fn ops [] 0 (opsBytes ops ++ []).length st hvalid (Nat.le_refl _)
  simp only [List.append_nil, Nat.zero_add, List.length_nil] at h
  rw [h]
  rfl

theorem replay_ops_append (fn : Nat) (l1 l2 : List Op) :
    ∀ (pos : Nat) (st : Index × Nat),
    replay_ops fn pos (l1 ++ l2) st
      = replay_ops fn (pos + (opsBytes l1).length) l2 (replay_ops fn pos l1 st) := by
  induction l1 with
  | nil =>
    intro pos st
    simp [replay_ops, opsBytes_nil]
  | cons op t ih =>
    intro pos st
    rw [List.cons_append, replay_ops, replay_ops, ih]
    congr 1
    rw [opsBytes_cons]
    simp only [List.length_append]
    omega

theorem replay_ops_file_num (fn : Nat) :
    ∀ (ops : List Op) (pos : Nat) (st : Index × Nat),
    (∀ e ∈ st.1, e.2.file_num = fn) →
    ∀ e ∈ (replay_ops fn pos ops st).1, e.2.file_num = fn := by
  intro ops
  induction ops with
  | nil => intro pos st h e he; exact h e he
  | cons op t ih =>
    intro pos st h
    rw [replay_ops]
    refine ih _ _ ?_
    intro e he
    cases op with
    | set k v =>
      rcases mem_ainsert he with h' | h'
      · rw [h']
      · exact h e h'
    | rm k =>
      exact h e (mem_aerase he)

theorem replay_ops_nodup (fn : Nat) :
    ∀ (ops : List Op) (pos : Nat) (st : Index × Nat),
    (st.1.map Prod.fst).Nodup →
    ((replay_ops fn pos ops st).1.map Prod.fst).Nodup := by
  intro ops
  induction ops with
  | nil => intro pos st h; exact h
  | cons op t ih =>
    intro pos st h
    rw [replay_ops]
    refine ih _ _ ?_
    cases op with
    | set k v => exact ainsert_keys _ _ h
    | rm k => exact aerase_keys _ _ h

/-- Every entry produced by replaying a suffix of the log (starting at
`base`) points at a `Set` record for its key somewhere in the whole log. -/
theorem replay_ops_sound (fn : Nat) (whole : Bytes) :
    ∀ (ops : List Op) (base : Nat) (st : Index × Nat),
    (∀ op ∈ ops, ValidOp op) →
    whole.drop base = opsBytes ops →
    (∀ e ∈ st.1, ∃ v r, decodeOp (whole.drop e.2.pos) = some (.set e.1 v, r)) →
    ∀ e ∈ (replay_ops fn base ops st).1,
      ∃ v r, decodeOp (whole.drop e.2.pos) = some (.set e.1 v, r) := by
  intro ops
  induction ops with
  | nil => intro base st _ _ h e he; exact h e he
  | cons op t ih =>
    intro base st hvalid hdrop h
    rw [replay_ops]
    have hdrop' : whole.drop (base + (encodeOp op).length) = opsBytes t := by
      rw [← List.drop_drop]
      rw [hdrop, opsBytes_cons, List.drop_left]
    refine ih _ _ (fun o ho => hvalid o (by simp [ho])) hdrop' ?_
    intro e he
    cases op with
    | set k v =>
      rcases mem_ainsert he with h' | h'
      · subst h'
        refine ⟨v, opsBytes t, ?_⟩
        show decodeOp (whole.drop base) = _
        rw [hdrop, opsBytes_cons]
        exact decodeOp_encodeOp (hvalid _ (by simp)) _
      · exact h e h'
    | rm k =>
      exact h e (mem_aerase he)

/-- States reachable from opening a store on a directory the store itself
produced from empty: a single log file holding a sequence of whole valid
records, with the index equal to that log's replay. -/
def FreshInv (s : SharedKvStore) : Prop :=
  ∃ ops : List Op, (∀ op ∈ ops, opOk op) ∧
    s.dir = [(s.monotonic, opsBytes ops)] ∧
    s.index = (replay_ops s.monotonic 0 ops ([], 0)).1

theorem freshInv_wf {s : SharedKvStore} (h : FreshInv s) : Wf s ∧ PointsActive s := by
  obtain ⟨ops, hops, hdir, hidx⟩ := h
  have hvalid : ∀ op ∈ ops, ValidOp op := fun op ho => (hops op ho).1
  have hlook : lookupFile s.dir s.monotonic = opsBytes ops := by
    rw [hdir]
    simp [lookupFile, alookup]
  have hpa : PointsActive s := by
    intro e he
    rw [hidx] at he
    exact replay_ops_file_num s.monotonic ops 0 ([], 0) (by simp) e he
  refine ⟨⟨?_, ?_, ?_, ?_, ?_, ?_⟩, hpa⟩
  · rw [hdir]
    simp [alookup]
  · intro e he
    rw [hdir] at he
    simp only [List.mem_singleton] at he
    rw [he]
  · rw [hdir]
    simp
  · rw [hidx]
    exact replay_ops_nodup s.monotonic ops 0 ([], 0) (by simp)
  · intro e he
    rw [hdir] at he
    simp only [List.mem_singleton] at he
    rw [he]
    exact opsBytes_bytesOk hops
  · intro e he
    rw [hidx] at he
    have hfn := replay_ops_file_num s.monotonic ops 0 ([], 0) (by simp) e he
    have := replay_ops_sound s.monotonic (opsBytes ops) ops 0 ([], 0) hvalid
      (by simp) (by simp) e he
    rw [hfn, hlook]
    exact this

theorem freshInv_setState {s : SharedKvStore} (h : FreshInv s) {k v : Bytes}
    (hop : opOk (.set k v)) (c : Nat) : FreshInv (setState s k v c) := by
  obtain ⟨ops, hops, hdir, hidx⟩ := h
  have hlook : lookupFile s.dir s.monotonic = opsBytes ops := by
    rw [hdir]
    simp [lookupFile, alookup]
  refine ⟨ops ++ [.set k v], ?_, ?_, ?_⟩
  · intro op ho
    rcases List.mem_append.mp ho with h' | h'
    · exact hops op h'
    · simp only [List.mem_singleton] at h'
      rw [h']
      exact hop
  · show updateFile s.dir s.monotonic
        (lookupFile s.dir s.monotonic ++ encodeOp (.set k v)) = _
    rw [hlook, hdir]
    show updateFile [(s.monotonic, opsBytes ops)] s.monotonic
        (opsBytes ops ++ encodeOp (.set k v))
      = [(s.monotonic, opsBytes (ops ++ [Op.set k v]))]
    simp [updateFile, ainsert, opsBytes_append, opsBytes_cons, opsBytes_nil]
  · show (ainsert s.index k ⟨s.monotonic, (lookupFile s.dir s.monotonic).length⟩).2
      = (replay_ops (setState s k v c).monotonic 0 (ops ++ [Op.set k v]) ([], 0)).1
    rw [hidx, hlook]
    show (ainsert (replay_ops s.monotonic 0 ops ([], 0)).1 k
        ⟨s.monotonic, (opsBytes ops).length⟩).2
      = (replay_ops s.monotonic 0 (ops ++ [Op.set k v]) ([], 0)).1
    simp only [replay_ops_append, replay_ops, replay_record]
    simp

theorem freshInv_removeState {s : SharedKvStore} (h : FreshInv s) {k : Bytes}
    (hop : opOk (.rm k)) : FreshInv (removeState s k) := by
  obtain ⟨ops, hops, hdir, hidx⟩ := h
  have hlook : lookupFile s.dir s.monotonic = opsBytes ops := by
    rw [hdir]
    simp [lookupFile, alookup]
  refine ⟨ops ++ [.rm k], ?_, ?_, ?_⟩
  · intro op ho
    rcases List.mem_append.mp ho with h' | h'
    · exact hops op h'
    · simp only [List.mem_singleton] at h'
      rw [h']
      exact hop
  · show updateFile s.dir s.monotonic
        (lookupFile s.dir s.monotonic ++ encodeOp (.rm k)) = _
    rw [hlook, hdir]
    show updateFile [(s.monotonic, opsBytes ops)] s.monotonic
        (opsBytes ops ++ encodeOp (.rm k))
      = [(s.monotonic, opsBytes (ops ++ [Op.rm k]))]
    simp [updateFile, ainsert, opsBytes_append, opsBytes_cons, opsBytes_nil]
  · show aerase s.index k
      = (replay_ops (removeState s k).monotonic 0 (ops ++ [Op.rm k]) ([], 0)).1
    rw [hidx]
    show aerase (replay_ops s.monotonic 0 ops ([], 0)).1 k
      = (replay_ops s.monotonic 0 (ops ++ [Op.rm k]) ([], 0)).1
    simp only [replay_ops_append, replay_ops, replay_record]

theorem freshInv_compact {s : SharedKvStore} (h : FreshInv s) :
    (SharedKvStore.compact s).1 = .ok () ∧ FreshInv (SharedKvStore.compact s).2 := by
  have hwf := (freshInv_wf h).1
  obtain ⟨ops, hops, hdir, hidx⟩ := h
  have hreads : ∀ e ∈ s.index, ∃ v,
      readVal s.dir (lookupFile s.dir s.monotonic) s.monotonic e.2 = .ok v ∧
      opOk (.set e.1 v) := by
    intro e he
    obtain ⟨v, r, hrv, hdec⟩ := readVal_of_entry hwf he
    exact ⟨v, hrv, decodeOp_opOk hdec (bytesOk_drop (lookupFile_bytesOk hwf _) _)⟩
  obtain ⟨out, ops', heq, hkeys, hops', hout, hreplay⟩ :=
    compactLoop_ok s.dir (lookupFile s.dir s.monotonic) s.monotonic (s.monotonic + 1)
      s.index (lookupFile s.dir (s.monotonic + 1)) hreads hwf.idx_nodup
  rw [newfile_empty hwf] at heq hreplay
  simp only [List.nil_append, List.length_nil] at heq hreplay
  have hcompact : SharedKvStore.compact s =
      (.ok (), ⟨eraseFile (updateFile s.dir (s.monotonic + 1) (opsBytes ops')) s.monotonic,
        out, 0, s.monotonic + 1⟩) := by
    simp only [SharedKvStore.compact]
    rw [newfile_empty hwf, heq]
  rw [hcompact]
  refine ⟨rfl, ops', hops', ?_, ?_⟩
  · show eraseFile (updateFile s.dir (s.monotonic + 1) (opsBytes ops')) s.monotonic
      = [(s.monotonic + 1, opsBytes ops')]
    rw [hdir]
    simp [updateFile, eraseFile, ainsert, aerase]
  · show out = (replay_ops (s.monotonic + 1) 0 ops' ([], 0)).1
    have := hreplay [] 0 (by simp)
    rw [this]
    simp

theorem freshInv_compact_maybe {s : SharedKvStore} (h : FreshInv s) :
    FreshInv (SharedKvStore.compact_maybe s).2 := by
  unfold SharedKvStore.compact_maybe
  by_cases hc : COMPACTION_LIMIT ≤ s.compactions
  · rw [if_pos hc]
    exact (freshInv_compact h).2
  · rw [if_neg hc]
    exact h

theorem freshInv_set {s : SharedKvStore} (h : FreshInv s) {k v : Bytes}
    (hop : opOk (.set k v)) : FreshInv (KvStore.set s k v).2 := by
  rw [set_eq]
  by_cases hdisp : (alookup s.index k).isSome
  · rw [if_pos hdisp]
    exact freshInv_compact_maybe (freshInv_setState h hop _)
  · rw [if_neg hdisp]
    exact freshInv_setState h hop _

theorem freshInv_remove {s : SharedKvStore} (h : FreshInv s) {k : Bytes}
    (hop : opOk (.rm k)) : FreshInv (KvStore.remove s k).2 := by
  rw [remove_eq]
  by_cases habs : (alookup s.index k).isNone
  · rw [if_pos habs]
    exact h
  · rw [if_neg habs]
    exact freshInv_compact_maybe (freshInv_removeState h hop)

/-! ## Command sequences -/

/-- An engine operation: the public write interface plus a manual
compaction. -/
inductive Cmd where
  | set (key value : Bytes)
  | rm (key : Bytes)
  | compact
deriving DecidableEq, Repr

/-- The command's strings are valid Rust strings (byte content, `u64`-sized). -/
def CmdOk : Cmd → Prop
  | .set k v => opOk (.set k v)
  | .rm k => opOk (.rm k)
  | .compact => True

instance : DecidablePred CmdOk := fun c => by
  cases c <;> simp only [CmdOk] <;> infer_instance

/-- Apply one command to the store (results are not observed; errors leave
the state the operation produced). -/
def stepCmd (s : SharedKvStore) : Cmd → SharedKvStore
  | .set k v => (KvStore.set s k v).2
  | .rm k => (KvStore.remove s k).2
  | .compact => (SharedKvStore.compact s).2

/-- Run a sequence of operations. -/
def runCmds (s : SharedKvStore) (cmds : List Cmd) : SharedKvStore :=
  cmds.foldl stepCmd s

theorem freshInv_stepCmd {s : SharedKvStore} (h : FreshInv s) {c : Cmd}
    (hc : CmdOk c) : FreshInv (stepCmd s c) := by
  cases c with
  | set k v => exact freshInv_set h hc
  | rm k => exact freshInv_remove h hc
  | compact => exact (freshInv_compact h).2

theorem freshInv_runCmds {s : SharedKvStore} (h : FreshInv s) :
    ∀ {cmds : List Cmd}, (∀ c ∈ cmds, CmdOk c) → FreshInv (runCmds s cmds) := by
  intro cmds
  induction cmds generalizing s with
  | nil => intro _; exact h
  | cons c t ih =>
    intro hc
    exact ih (freshInv_stepCmd h (hc c (by simp))) (fun c' hc' => hc c' (by simp [hc']))

theorem freshInv_open_nil : FreshInv (KvStore.open' []) := by
  refine ⟨[], by simp, ?_, ?_⟩
  · show (KvStore.open' []).dir = [((KvStore.open' []).monotonic, opsBytes [])]
    rfl
  · rfl

/-- Reopening the directory of a fresh-reachable store rebuilds the same
index, active file and `monotonic`; only the opportunity counter is
recomputed by replay. -/
theorem reopen_eq {s : SharedKvStore} (h : FreshInv s) :
    ∃ c', KvStore.open' s.dir = ⟨s.dir, s.index, c', s.monotonic⟩ := by
  obtain ⟨ops, hops, hdir, hidx⟩ := h
  have hvalid : ∀ op ∈ ops, ValidOp op := fun op ho => (hops op ho).1
  refine ⟨(replay_ops s.monotonic 0 ops ([], 0)).2, ?_⟩
  have hnums : sorted_file_nums s.dir = [s.monotonic] := by
    rw [hdir]
    rfl
  have hlookup : lookupFile s.dir s.monotonic = opsBytes ops := by
    rw [hdir]
    simp [lookupFile, alookup]
  have hupd : updateFile s.dir s.monotonic (lookupFile s.dir s.monotonic) = s.dir := by
    rw [hlookup, hdir]
    unfold updateFile ainsert
    simp
  unfold KvStore.open'
  rw [hnums]
  have hfiles : replay_files s.dir [s.monotonic] ([], 0)
      = replay_ops s.monotonic 0 ops ([], 0) := by
    show replay_files s.dir [] (replay_file s.monotonic (lookupFile s.dir s.monotonic) ([], 0))
      = _
    rw [hlookup]
    show replay_file s.monotonic (opsBytes ops) ([], 0) = _
    exact replay_file_ops s.monotonic ops ([], 0) hvalid
  show (⟨updateFile s.dir (lastD [s.monotonic] 0) (lookupFile s.dir (lastD [s.monotonic] 0)),
      (replay_files s.dir [s.monotonic] ([], 0)).1,
      (replay_files s.dir [s.monotonic] ([], 0)).2,
      lastD [s.monotonic] 0⟩ : SharedKvStore) = _
  rw [show lastD [s.monotonic] 0 = s.monotonic from rfl, hfiles, hupd, ← hidx]

/-- `get` does not read the opportunity counter. -/
theorem get_compactions_irrel (d : Dir) (i : Index) (c c' m : Nat) (k : Bytes) :
    KvStore.get ⟨d, i, c, m⟩ k = KvStore.get ⟨d, i, c', m⟩ k := rfl

theorem get_reopen_of_fresh {s : SharedKvStore} (h : FreshInv s) (k : Bytes) :
    KvStore.get (KvStore.open' s.dir) k = KvStore.get s k := by
  obtain ⟨c', heq⟩ := reopen_eq h
  rw [heq]
  rfl

/-! ## Refinement to a pure map; the non-compacting reference engine -/

namespace NoCompact

/-- Modelled from the spec: "an equivalent non-compacting engine" — the
write path of §4.1 without step 5 (compaction never runs).  The read path
is the unchanged `KvStore.get`. -/
def set (s : SharedKvStore) (key value : Bytes) : Except Error Unit × SharedKvStore :=
  (.ok (), setState s key value s.compactions)

/-- Modelled from the spec: the remove path without step 5 (no compaction):
`KeyNotFound` when absent, otherwise append `Rm` and drop the entry. -/
def remove (s : SharedKvStore) (key : Bytes) : Except Error Unit × SharedKvStore :=
  if (alookup s.index key).isNone then (.error (.keyNotFound key), s)
  else (.ok (), removeState s key)

/-- One command on the non-compacting engine; a manual `compact` is a
no-op, since this engine never compacts. -/
def stepCmd (s : SharedKvStore) : Cmd → SharedKvStore
  | .set k v => (set s k v).2
  | .rm k => (remove s k).2
  | .compact => s

def runCmds (s : SharedKvStore) (cmds : List Cmd) : SharedKvStore :=
  cmds.foldl stepCmd s

end NoCompact

/-- The observable content of the store: a pure key-value map. -/
abbrev Model := List (Bytes × Bytes)

/-- Effect of one command on the pure map: `set` inserts, `rm` erases,
`compact` changes nothing. -/
def stepModel (M : Model) : Cmd → Model
  | .set k v => (ainsert M k v).2
  | .rm k => aerase M k
  | .compact => M

def runModel (M : Model) (cmds : List Cmd) : Model :=
  cmds.foldl stepModel M

/-- Simulation relation: the store is well-formed, every entry points into
the active log, and the index carries exactly the map's keys with the
map's values as live values. -/
def SimRel (M : Model) (s : SharedKvStore) : Prop :=
  Wf s ∧ PointsActive s ∧ (M.map Prod.fst).Nodup ∧
  (∀ k, (alookup s.index k).isSome ↔ (alookup M k).isSome) ∧
  (∀ k v, alookup M k = some v → HasVal s k v)

/-- Under the simulation relation, `get` returns exactly the map's value. -/
theorem get_of_rel {M : Model} {s : SharedKvStore} (h : SimRel M s) (k : Bytes) :
    KvStore.get s k = .ok (alookup M k) := by
  obtain ⟨hwf, hpa, _, hiso, hval⟩ := h
  cases hM : alookup M k with
  | none =>
    have hidx : alookup s.index k = none := by
      have h1 := hiso k
      rw [hM] at h1
      simp only [Option.isSome_none, Bool.false_eq_true, iff_false] at h1
      exact Option.not_isSome_iff_eq_none.mp h1
    exact get_none hidx
  | some v =>
    obtain ⟨p, r, hl, hd⟩ := hval k v hM
    have hfn : p.file_num = s.monotonic := hpa (k, p) (alookup_mem hl)
    rw [hfn] at hd
    exact get_of_active_entry hl hd

theorem rel_setState {M : Model} {s : SharedKvStore} (h : SimRel M s) {k v : Bytes}
    (hop : opOk (.set k v)) (c : Nat) :
    SimRel (ainsert M k v).2 (setState s k v c) := by
  obtain ⟨hwf, hpa, hnd, hiso, hval⟩ := h
  obtain ⟨hwf₁, hkent, hother, hvals, hpa₁⟩ := setState_facts hwf hop c
  obtain ⟨p₁, hl₁, hf₁, r₁, hd₁⟩ := hkent
  refine ⟨hwf₁, hpa₁ hpa, ainsert_keys _ _ hnd, ?_, ?_⟩
  · intro k'
    by_cases hk : k' = k
    · subst hk
      rw [hl₁, alookup_ainsert_self]
      simp
    · rw [hother k' hk, alookup_ainsert_ne _ _ _ _ (fun hc => hk hc.symm)]
      exact hiso k'
  · intro k' v' hM'
    by_cases hk : k' = k
    · subst hk
      rw [alookup_ainsert_self] at hM'
      obtain rfl : v = v' := by simpa using hM'
      exact ⟨p₁, r₁, hl₁, by rw [hf₁]; exact hd₁⟩
    · rw [alookup_ainsert_ne _ _ _ _ (fun hc => hk hc.symm)] at hM'
      exact (hvals k' v' hk).mpr (hval k' v' hM')

theorem rel_removeState {M : Model} {s : SharedKvStore} (h : SimRel M s) {k : Bytes}
    (hop : opOk (.rm k)) : SimRel (aerase M k) (removeState s k) := by
  obtain ⟨hwf, hpa, hnd, hiso, hval⟩ := h
  obtain ⟨hwf₁, hnone₁, hother, hvals, hpa₁⟩ := removeState_facts hwf hop
  refine ⟨hwf₁, hpa₁ hpa, aerase_keys _ _ hnd, ?_, ?_⟩
  · intro k'
    by_cases hk : k' = k
    · subst hk
      rw [hnone₁, alookup_aerase_self _ _ hnd]
      simp
    · rw [hother k' hk, alookup_aerase_ne _ _ _ (fun hc => hk hc.symm)]
      exact hiso k'
  · intro k' v' hM'
    by_cases hk : k' = k
    · subst hk
      rw [alookup_aerase_self _ _ hnd] at hM'
      exact absurd hM' (by simp)
    · rw [alookup_aerase_ne _ _ _ (fun hc => hk hc.symm)] at hM'
      exact (hvals k' v' hk).mpr (hval k' v' hM')

theorem rel_compact {M : Model} {s : SharedKvStore} (h : SimRel M s) :
    SimRel M (SharedKvStore.compact s).2 := by
  obtain ⟨hwf, hpa, hnd, hiso, hval⟩ := h
  obtain ⟨s', heq, hwf', _, _, hpa', hiso', hval'⟩ := compact_ok hwf
  rw [heq]
  refine ⟨hwf', hpa', hnd, ?_, ?_⟩
  · intro k
    rw [hiso' k]
    exact hiso k
  · intro k v hM
    exact (hval' k v).mpr (hval k v hM)

theorem rel_compact_maybe {M : Model} {s : SharedKvStore} (h : SimRel M s) :
    SimRel M (SharedKvStore.compact_maybe s).2 := by
  unfold SharedKvStore.compact_maybe
  by_cases hc : COMPACTION_LIMIT ≤ s.compactions
  · rw [if_pos hc]
    exact rel_compact h
  · rw [if_neg hc]
    exact h

/-- One step of the real engine preserves the simulation. -/
theorem rel_stepCmd {M : Model} {s : SharedKvStore} (h : SimRel M s) {c : Cmd}
    (hc : CmdOk c) : SimRel (stepModel M c) (stepCmd s c) := by
  cases c with
  | set k v =>
    show SimRel (ainsert M k v).2 (KvStore.set s k v).2
    rw [set_eq]
    by_cases hdisp : (alookup s.index k).isSome
    · rw [if_pos hdisp]
      exact rel_compact_maybe (rel_setState h hc _)
    · rw [if_neg hdisp]
      exact rel_setState h hc _
  | rm k =>
    show SimRel (aerase M k) (KvStore.remove s k).2
    rw [remove_eq]
    by_cases habs : (alookup s.index k).isNone
    · rw [if_pos habs]
      have hM : alookup M k = none := by
        have h1 := h.2.2.2.1 k
        rw [Option.isNone_iff_eq_none] at habs
        rw [habs] at h1
        simp only [Option.isSome_none, Bool.false_eq_true, false_iff] at h1
        exact Option.not_isSome_iff_eq_none.mp h1
      rw [aerase_of_not_mem (by rw [← alookup_eq_none_iff]; exact hM)]
      exact h
    · rw [if_neg habs]
      exact rel_compact_maybe (rel_removeState h hc)
  | compact =>
    show SimRel M (SharedKvStore.compact s).2
    exact rel_compact h

/-- One step of the non-compacting reference engine preserves the same
simulation. -/
theorem rel_stepCmd_nc {M : Model} {s : SharedKvStore} (h : SimRel M s) {c : Cmd}
    (hc : CmdOk c) : SimRel (stepModel M c) (NoCompact.stepCmd s c) := by
  cases c with
  | set k v =>
    exact rel_setState h hc _
  | rm k =>
    show SimRel (aerase M k) (NoCompact.remove s k).2
    unfold NoCompact.remove
    by_cases habs : (alookup s.index k).isNone
    · rw [if_pos habs]
      have hM : alookup M k = none := by
        have h1 := h.2.2.2.1 k
        rw [Option.isNone_iff_eq_none] at habs
        rw [habs] at h1
        simp only [Option.isSome_none, Bool.false_eq_true, false_iff] at h1
        exact Option.not_isSome_iff_eq_none.mp h1
      rw [aerase_of_not_mem (by rw [← alookup_eq_none_iff]; exact hM)]
      exact h
    · rw [if_neg habs]
      exact rel_removeState h hc
  | compact => exact h

theorem rel_runCmds {M : Model} {s : SharedKvStore} (h : SimRel M s) :
    ∀ {cmds : List Cmd}, (∀ c ∈ cmds, CmdOk c) →
    SimRel (runModel M cmds) (runCmds s cmds) := by
  intro cmds
  induction cmds generalizing M s with
  | nil => intro _; exact h
  | cons c t ih =>
    intro hc
    exact ih (rel_stepCmd h (hc c (by simp))) (fun c' hc' => hc c' (by simp [hc']))

theorem rel_runCmds_nc {M : Model} {s : SharedKvStore} (h : SimRel M s) :
    ∀ {cmds : List Cmd}, (∀ c ∈ cmds, CmdOk c) →
    SimRel (runModel M cmds) (NoCompact.runCmds s cmds) := by
  intro cmds
  induction cmds generalizing M s with
  | nil => intro _; exact h
  | cons c t ih =>
    intro hc
    exact ih (rel_stepCmd_nc h (hc c (by simp))) (fun c' hc' => hc c' (by simp [hc']))

theorem rel_open_nil : SimRel [] (KvStore.open' []) := by
  obtain ⟨hwf, hpa⟩ := freshInv_wf freshInv_open_nil
  refine ⟨hwf, hpa, by simp, ?_, ?_⟩
  · intro k
    show (alookup ([] : Index) k).isSome ↔ (alookup ([] : Model) k).isSome
    simp [alookup]
  · intro k v hM
    simp [alookup] at hM

/-! ## Claim theorems -/

deriving instance DecidableEq for Except

set_option maxRecDepth 100000
set_option maxHeartbeats 2000000

/-- Directory with two log files, as recovery from a crashed compaction
leaves behind: `1.log` holds `Set{"a","1"}`, `2.log` holds
`Set{"bb","22"}`. -/
def c1dir : Dir := [(1, encodeOp (.set [97] [49])), (2, encodeOp (.set [98, 98] [50, 50]))]

/-- C1 (code bug): after opening a directory with log files `1` and `2`,
the index entry for key "a" (`[97]`) points at file 1 offset 0, where
`Set{"a","1"}` lives — but `get` reads the active log (file 2) at that
offset and returns "22" (`[50, 50]`), the value of the other key's record,
instead of "1" as the claim requires.  `KvStore::get` passes
`store.log_file` to `value_at_pos`, ignoring `log_ptr.file_num`. -/
theorem c1_get_ignores_file_num :
    alookup (KvStore.open' c1dir).index [97] = some ⟨1, 0⟩ ∧
    KvStore.get (KvStore.open' c1dir) [97] = .ok (some [50, 50]) := by decide

/-- Repeated `set` of the same key. -/
def runSets (s : SharedKvStore) (k : Bytes) (vs : List Bytes) : SharedKvStore :=
  vs.foldl (fun s v => (KvStore.set s k v).2) s

/-- C2 (confirmed): on any well-formed open store, after
`set(k,v₁); …; set(k,vₙ)` (n ≥ 1), `get(k)` returns `Ok(Some(vₙ))` — the
sequence may trigger compactions, which rewrite the entry but preserve the
value. -/
theorem c2_overwrite (s : SharedKvStore) (hwf : Wf s) (k : Bytes) (vs : List Bytes)
    (hk : k.length < U64CAP ∧ bytesOk k)
    (hvs : ∀ v ∈ vs, v.length < U64CAP ∧ bytesOk v)
    (hne : vs ≠ []) :
    KvStore.get (runSets s k vs) k = .ok (some (vs.getLast hne)) := by
  revert hne hvs hwf
  induction vs generalizing s with
  | nil =>
    intro _ _ hne
    exact absurd rfl hne
  | cons v t ih =>
    intro hwf hvs hne
    have hop : opOk (.set k v) := by
      refine ⟨⟨hk.1, (hvs v (by simp)).1⟩, ?_⟩
      show bytesOk (k ++ v)
      exact bytesOk_append hk.2 (hvs v (by simp)).2
    obtain ⟨s', heq, hwf', hact, _, _, _, _⟩ := set_ok hwf hop
    have h2 : (KvStore.set s k v).2 = s' := by rw [heq]
    cases t with
    | nil =>
      show KvStore.get (KvStore.set s k v).2 k = .ok (some v)
      rw [h2]
      obtain ⟨p, hl, hfn, r, hd⟩ := hact
      exact get_of_active_entry hl hd
    | cons v' t' =>
      show KvStore.get (runSets (KvStore.set s k v).2 k (v' :: t')) k
        = .ok (some ((v' :: t').getLast (by simp)))
      rw [h2]
      exact ih s' hwf' (fun w hw => hvs w (by simp [hw])) (by simp)

/-- C2 witness at a concrete store and value sequence. -/
theorem c2_overwrite_witness :
    (([97] : Bytes).length < U64CAP ∧ bytesOk [97]) ∧
    (∀ v ∈ ([[49], [50]] : List Bytes), v.length < U64CAP ∧ bytesOk v) ∧
    ([[49], [50]] : List Bytes) ≠ [] ∧
    KvStore.get (runSets (KvStore.open' []) [97] [[49], [50]]) [97] = .ok (some [50]) :=
  ⟨by decide, by decide, by decide,
    c2_overwrite (KvStore.open' []) (freshInv_wf freshInv_open_nil).1 [97] [[49], [50]]
      (by decide) (by decide) (by decide)⟩

/-- C3 (confirmed): running any sequence of set/remove/compact operations
on an engine opened on an empty directory, then reopening the directory it
produced (enumerating the `<digits>.log` files, replaying them sorted
ascending and adopting the greatest number as `monotonic`), yields an
engine whose `get` agrees with the one before the close on every key. -/
theorem c3_reopen_idempotent (cmds : List Cmd) (hc : ∀ c ∈ cmds, CmdOk c) (k : Bytes) :
    KvStore.get (KvStore.open' ((runCmds (KvStore.open' []) cmds).dir)) k
      = KvStore.get (runCmds (KvStore.open' []) cmds) k :=
  get_reopen_of_fresh (freshInv_runCmds freshInv_open_nil hc) k

/-- C3 witness at a concrete operation sequence. -/
theorem c3_reopen_idempotent_witness :
    (∀ c ∈ [Cmd.set [97] [98], Cmd.rm [97], Cmd.set [97] [99], Cmd.compact,
        Cmd.set [100] [101]], CmdOk c) ∧
    KvStore.get (KvStore.open' ((runCmds (KvStore.open' [])
        [Cmd.set [97] [98], Cmd.rm [97], Cmd.set [97] [99], Cmd.compact,
         Cmd.set [100] [101]]).dir)) [97]
      = KvStore.get (runCmds (KvStore.open' [])
        [Cmd.set [97] [98], Cmd.rm [97], Cmd.set [97] [99], Cmd.compact,
         Cmd.set [100] [101]]) [97] :=
  ⟨by decide,
    c3_reopen_idempotent [Cmd.set [97] [98], Cmd.rm [97], Cmd.set [97] [99], Cmd.compact,
      Cmd.set [100] [101]] (by decide) [97]⟩

/-- C4 (confirmed): the `get` results after any operation sequence (with
however many automatic or manual compactions it performs) match those of
the same sequence run on the never-compacting reference engine. -/
theorem c4_compaction_preserves_gets (cmds : List Cmd) (hc : ∀ c ∈ cmds, CmdOk c)
    (k : Bytes) :
    KvStore.get (runCmds (KvStore.open' []) cmds) k
      = KvStore.get (NoCompact.runCmds (KvStore.open' []) cmds) k := by
  rw [get_of_rel (rel_runCmds rel_open_nil hc) k,
    get_of_rel (rel_runCmds_nc rel_open_nil hc) k]

/-- C4 witness: 52 overwrites of one key (enough to trigger automatic
compaction) plus one manual compaction. -/
theorem c4_compaction_preserves_gets_witness :
    (∀ c ∈ ((List.range 52).map (fun i => Cmd.set [107] [i]) ++ [Cmd.compact]), CmdOk c) ∧
    KvStore.get (runCmds (KvStore.open' [])
        ((List.range 52).map (fun i => Cmd.set [107] [i]) ++ [Cmd.compact])) [107]
      = KvStore.get (NoCompact.runCmds (KvStore.open' [])
        ((List.range 52).map (fun i => Cmd.set [107] [i]) ++ [Cmd.compact])) [107] :=
  ⟨by decide,
    c4_compaction_preserves_gets ((List.range 52).map (fun i => Cmd.set [107] [i])
      ++ [Cmd.compact]) (by decide) [107]⟩

/-- C5 (code bug): the engine guards do not behave as claimed.  The sled
guard tests `Path::ends_with(".log")`, which matches whole path components
only, so a directory containing `1.log` does not trip it and
`SledEngine::open` succeeds; only a file literally named `.log` trips it,
and even then the error is `Error::Io`, as the `Error` enum has no
`EngineMismatch` variant.  `KvStore::open` has no guard at all: on a
directory with no `<digits>.log` files (such as one produced by sled,
holding `conf` and `db`) it silently starts a fresh store. -/
theorem c5_engine_guard_behavior :
    sledContainsKvsFiles ["data"] [⟨"1.log", false⟩] = false ∧
    SledEngine.open' ["data"] [⟨"1.log", false⟩] = .ok () ∧
    sledContainsKvsFiles ["data"] [⟨".log", false⟩] = true ∧
    SledEngine.open' ["data"] [⟨".log", false⟩] = .error .ioError ∧
    sorted_file_nums_of_names [("conf", false), ("db", false)] = [] ∧
    (KvStore.open' []).monotonic = 1 ∧ (KvStore.open' []).index = [] := by
  decide

/-- A log holding fifty `Rm{""}` records: replay counts fifty compaction
opportunities. -/
def c6dir : Dir := [(1, opsBytes (List.replicate 50 (Op.rm [])))]

/-- C6 counterexample: open a directory whose replay leaves
`stale_count = 50 ≥ COMPACTION_THRESHOLD`, then `set` a key that was not
present.  The set succeeds but runs no compaction: `stale_count` stays 50
(not `< 50` as the claim requires), `monotonic` stays 1 and no `2.log` is
created, because `KvStore::set` only reaches `compact_maybe` when the
insert displaced an existing entry. -/
theorem c6_counterexample :
    (KvStore.open' c6dir).compactions = 50 ∧
    COMPACTION_LIMIT ≤ (KvStore.open' c6dir).compactions ∧
    (KvStore.set (KvStore.open' c6dir) [98] [49]).1 = .ok () ∧
    (KvStore.set (KvStore.open' c6dir) [98] [49]).2.compactions = 50 ∧
    (KvStore.set (KvStore.open' c6dir) [98] [49]).2.monotonic = 1 ∧
    alookup (KvStore.set (KvStore.open' c6dir) [98] [49]).2.dir 2 = none := by
  decide

/-- C6 (amended): `set` runs the compaction check only when the insert
displaced an existing index entry.  After a `set` of a key that was
present, `stale_count < COMPACTION_THRESHOLD`; a `set` of a fresh key only
appends the record and inserts the entry, leaving `stale_count` and
`monotonic` unchanged even when `stale_count ≥ COMPACTION_THRESHOLD`. -/
theorem c6_amended (s : SharedKvStore) (hwf : Wf s) (k v : Bytes)
    (hop : opOk (.set k v)) :
    (alookup s.index k = none →
      (KvStore.set s k v).2 = setState s k v s.compactions ∧
      (KvStore.set s k v).2.compactions = s.compactions ∧
      (KvStore.set s k v).2.monotonic = s.monotonic) ∧
    ((alookup s.index k).isSome →
      (KvStore.set s k v).2.compactions < COMPACTION_LIMIT) := by
  constructor
  · intro hnone
    have hns : ¬(alookup s.index k).isSome = true := by simp [hnone]
    rw [set_eq, if_neg hns]
    exact ⟨rfl, rfl, rfl⟩
  · intro hsome
    rw [set_eq, if_pos hsome]
    obtain ⟨hwf₁, _, _, _, _⟩ := setState_facts hwf hop ((s.compactions + 1) % 65536)
    obtain ⟨s', heq, _, _, _, _, hcomp⟩ := compact_maybe_ok hwf₁
    rw [heq]
    show s'.compactions < COMPACTION_LIMIT
    rw [hcomp]
    have hL : COMPACTION_LIMIT = 50 := rfl
    split
    · rw [hL]; omega
    · rename_i hlt
      omega

/-- C6 amended witness at a concrete store. -/
theorem c6_amended_witness :
    opOk (Op.set [97] [98]) ∧
    ((alookup (KvStore.open' []).index [97] = none →
      (KvStore.set (KvStore.open' []) [97] [98]).2
          = setState (KvStore.open' []) [97] [98] (KvStore.open' []).compactions ∧
      (KvStore.set (KvStore.open' []) [97] [98]).2.compactions
          = (KvStore.open' []).compactions ∧
      (KvStore.set (KvStore.open' []) [97] [98]).2.monotonic
          = (KvStore.open' []).monotonic) ∧
    ((alookup (KvStore.open' []).index [97]).isSome →
      (KvStore.set (KvStore.open' []) [97] [98]).2.compactions < COMPACTION_LIMIT)) :=
  ⟨by decide,
    c6_amended (KvStore.open' []) (freshInv_wf freshInv_open_nil).1 [97] [98] (by decide)⟩

/-- Directory whose active (highest-numbered) log starts with an `Rm`
record while the index entry for "aa" points at offset 0 of the older
file. -/
def c7dir : Dir := [(1, encodeOp (.set [97, 97] [49])), (2, encodeOp (.rm [122, 122]))]

/-- C7 counterexample: a `get` whose index entry resolves (in the active
log, which `get` always reads) to an `Rm{"zz"}` record returns
`Error::KeyNotFound{"zz"}` — not `Error::Corruption`, which does not exist
in the `Error` enum (`value_at_pos` has a TODO noting the missing
dedicated error). -/
theorem c7_counterexample :
    alookup (KvStore.open' c7dir).index [97, 97] = some ⟨1, 0⟩ ∧
    decodeOp ((lookupFile (KvStore.open' c7dir).dir
        (KvStore.open' c7dir).monotonic).drop 0) = some (.rm [122, 122], []) ∧
    KvStore.get (KvStore.open' c7dir) [97, 97] = .error (.keyNotFound [122, 122]) := by
  decide

/-- C7 (amended): whenever the record `get` reads for a key decodes as
`Rm{j}`, the call returns `Error::KeyNotFound{j}` (the key of the `Rm`
record); the error taxonomy has no `Corruption` variant. -/
theorem c7_amended (s : SharedKvStore) (k j r : Bytes) (p : LogPtr)
    (hl : alookup s.index k = some p)
    (hd : decodeOp ((lookupFile s.dir s.monotonic).drop p.pos) = some (.rm j, r)) :
    KvStore.get s k = .error (.keyNotFound j) := by
  rw [KvStore.get, hl]
  simp only [value_at_pos, hd]

/-- C7 amended witness at the concrete two-file store. -/
theorem c7_amended_witness :
    alookup (KvStore.open' c7dir).index [97, 97] = some ⟨1, 0⟩ ∧
    decodeOp ((lookupFile (KvStore.open' c7dir).dir
        (KvStore.open' c7dir).monotonic).drop (0 : Nat)) = some (.rm [122, 122], []) ∧
    KvStore.get (KvStore.open' c7dir) [97, 97] = .error (.keyNotFound [122, 122]) :=
  ⟨by decide, by decide,
    c7_amended (KvStore.open' c7dir) [97, 97] [122, 122] [] ⟨1, 0⟩ (by decide) (by decide)⟩

/-- C8 (confirmed): `remove(k)` fails with `Error::KeyNotFound` exactly
when `k` is absent from the index; when present it returns `Ok(())` after
appending `Rm{k}` to the active log, deleting the index entry and bumping
the stale counter (then possibly compacting, which `compact_maybe`
decides), leaving `k` absent. -/
theorem c8_remove (s : SharedKvStore) (hwf : Wf s) (k : Bytes) (hop : opOk (.rm k)) :
    ((KvStore.remove s k).1 = .error (.keyNotFound k) ↔ alookup s.index k = none) ∧
    ((alookup s.index k).isSome →
      (KvStore.remove s k).1 = .ok () ∧
      KvStore.remove s k = SharedKvStore.compact_maybe
        ⟨updateFile s.dir s.monotonic (lookupFile s.dir s.monotonic ++ encodeOp (.rm k)),
         aerase s.index k, (s.compactions + 1) % 65536, s.monotonic⟩ ∧
      alookup (KvStore.remove s k).2.index k = none) := by
  obtain ⟨habs, hpres⟩ := remove_ok hwf hop
  have hpos : (alookup s.index k).isSome →
      (KvStore.remove s k).1 = .ok () ∧
      KvStore.remove s k = SharedKvStore.compact_maybe
        ⟨updateFile s.dir s.monotonic (lookupFile s.dir s.monotonic ++ encodeOp (.rm k)),
         aerase s.index k, (s.compactions + 1) % 65536, s.monotonic⟩ ∧
      alookup (KvStore.remove s k).2.index k = none := by
    intro hsome
    obtain ⟨s', heq, hwf', hgone, _⟩ := hpres hsome
    have hnn : ¬((alookup s.index k).isNone = true) := by
      intro hc
      rw [Option.isNone_iff_eq_none] at hc
      rw [hc] at hsome
      exact absurd hsome (by simp)
    refine ⟨by rw [heq], ?_, by rw [heq]; exact hgone⟩
    rw [remove_eq, if_neg hnn]
    rfl
  refine ⟨?_, hpos⟩
  constructor
  · intro hres
    cases hlk : alookup s.index k with
    | none => rfl
    | some p =>
      obtain ⟨hok, _, _⟩ := hpos (by simp [hlk])
      rw [hok] at hres
      exact absurd hres (by simp)
  · intro hnone
    rw [habs (by simp [hnone])]

/-- C8 witness on a store holding the key. -/
theorem c8_remove_witness :
    opOk (Op.rm [97]) ∧
    (((KvStore.remove (KvStore.set (KvStore.open' []) [97] [98]).2 [97]).1
        = .error (.keyNotFound [97])
      ↔ alookup (KvStore.set (KvStore.open' []) [97] [98]).2.index [97] = none) ∧
    ((alookup (KvStore.set (KvStore.open' []) [97] [98]).2.index [97]).isSome →
      (KvStore.remove (KvStore.set (KvStore.open' []) [97] [98]).2 [97]).1 = .ok () ∧
      KvStore.remove (KvStore.set (KvStore.open' []) [97] [98]).2 [97]
        = SharedKvStore.compact_maybe
          ⟨updateFile (KvStore.set (KvStore.open' []) [97] [98]).2.dir
              (KvStore.set (KvStore.open' []) [97] [98]).2.monotonic
              (lookupFile (KvStore.set (KvStore.open' []) [97] [98]).2.dir
                (KvStore.set (KvStore.open' []) [97] [98]).2.monotonic
                ++ encodeOp (.rm [97])),
           aerase (KvStore.set (KvStore.open' []) [97] [98]).2.index [97],
           ((KvStore.set (KvStore.open' []) [97] [98]).2.compactions + 1) % 65536,
           (KvStore.set (KvStore.open' []) [97] [98]).2.monotonic⟩ ∧
      alookup (KvStore.remove (KvStore.set (KvStore.open' []) [97] [98]).2 [97]).2.index [97]
        = none)) :=
  ⟨by decide,
    c8_remove (KvStore.set (KvStore.open' []) [97] [98]).2
      (freshInv_wf (freshInv_set freshInv_open_nil (by decide))).1 [97] (by decide)⟩

/-- C9 counterexample: with the queue holding a panicking job, a normal
job and the shutdown sentinel, the worker completes nothing and its loop
ends by the panic — the second job is never run and the exit is not the
`Shutdown` sentinel; the same queue without the panic runs both jobs and
exits via `Shutdown`.  `handle_jobs` calls `f()` with no `catch_unwind`
and no logging, so an unwinding task terminates the worker thread. -/
theorem c9_counterexample :
    handle_jobs [.job 0 true, .job 1 false, .shutdown] = ([], some (.panicked 0)) ∧
    handle_jobs [.job 0 false, .job 1 false, .shutdown] = ([0, 1], some .shutdown) := by
  decide

/-- C9 (amended): a panicking task terminates its worker: after any run of
non-panicking jobs, a job that unwinds ends `handle_jobs` with a panic
exit, and no later message — job or `Shutdown` — is processed by that
worker. -/
theorem c9_amended (pre : List PoolMsg) (i : Nat) (rest : List PoolMsg)
    (hpre : ∀ m ∈ pre, ∃ id, m = PoolMsg.job id false) :
    handle_jobs (pre ++ PoolMsg.job i true :: rest)
      = (pre.filterMap (fun m => match m with
          | .job id _ => some id
          | .shutdown => none),
         some (.panicked i)) := by
  induction pre with
  | nil => simp [handle_jobs]
  | cons m t ih =>
    obtain ⟨id, rfl⟩ := hpre m (by simp)
    rw [List.cons_append]
    show (let r := handle_jobs (t ++ PoolMsg.job i true :: rest); (id :: r.1, r.2)) = _
    rw [ih (fun m' hm' => hpre m' (by simp [hm']))]
    simp [List.filterMap_cons]

/-- C9 amended witness at a concrete queue. -/
theorem c9_amended_witness :
    (∀ m ∈ [PoolMsg.job 5 false], ∃ id, m = PoolMsg.job id false) ∧
    handle_jobs ([PoolMsg.job 5 false] ++ PoolMsg.job 7 true
        :: [PoolMsg.job 9 false, PoolMsg.shutdown])
      = ([5], some (.panicked 7)) :=
  ⟨fun m hm => ⟨5, by simpa using hm⟩,
    c9_amended [PoolMsg.job 5 false] 7 [PoolMsg.job 9 false, PoolMsg.shutdown]
      (fun m hm => ⟨5, by simpa using hm⟩)⟩

/-- C10 (confirmed): when the key is absent, `remove` returns
`Error::KeyNotFound{k}` and the entire state — directory (so no appended
record), index, stale counter and `monotonic` — is exactly the input
state: the absence check precedes any write. -/
theorem c10_remove_missing_unchanged (s : SharedKvStore) (k : Bytes)
    (h : alookup s.index k = none) :
    KvStore.remove s k = (.error (.keyNotFound k), s) := by
  rw [remove_eq, if_pos (by simp [h])]

/-- C10 witness at a concrete store. -/
theorem c10_remove_missing_unchanged_witness :
    alookup (KvStore.open' []).index [97] = none ∧
    KvStore.remove (KvStore.open' []) [97]
      = (.error (.keyNotFound [97]), KvStore.open' []) :=
  ⟨by decide, c10_remove_missing_unchanged (KvStore.open' []) [97] (by decide)⟩
